import Mathlib

/-!
Verification of the real-time session and room-broadcast engine of the
ChatApplication repository (backend/ws.js, backend/services/messages.js,
backend/services/rooms.js, backend/wsUtils.js, backend/state.js).

The JavaScript engine keeps its state in insertion-ordered Maps and Sets.
We embed a JS Map as an association list with distinct keys (mset replaces
in place or appends, mdel removes the entry, mget looks up) and a JS Set
as a duplicate-free list (sadd appends if absent, List.erase removes).
Handlers become pure functions from state and inputs to a new state plus
a list of observable effects (sendEvent invocations, persistence attempts,
room-record touches); an awaited persistence call that rejects aborts the
rest of the handler, which we model with an explicit persistOk flag.
-/

namespace Chat

/-- mget models JavaScript Map.get: the value at the first matching key. -/
def mget {α β : Type} [DecidableEq α] (k : α) : List (α × β) → Option β
  | [] => none
  | (k2, v) :: rest => if k2 = k then some v else mget k rest

/-- mset models JavaScript Map.set: replace in place, else append. -/
def mset {α β : Type} [DecidableEq α] (k : α) (v : β) : List (α × β) → List (α × β)
  | [] => [(k, v)]
  | (k2, v2) :: rest => if k2 = k then (k, v) :: rest else (k2, v2) :: mset k v rest

/-- mdel models JavaScript Map.delete: remove the entry for the key. -/
def mdel {α β : Type} [DecidableEq α] (k : α) : List (α × β) → List (α × β)
  | [] => []
  | (k2, v2) :: rest => if k2 = k then rest else (k2, v2) :: mdel k rest

/-- sadd models JavaScript Set.add: append the element when absent. -/
def sadd {α : Type} [DecidableEq α] (a : α) (l : List α) : List α :=
  if a ∈ l then l else l ++ [a]


/-- Protocol frame type names, as in backend/constants.js MESSAGE_TYPES. -/
inductive Frame : Type
  | ack (text : String)
  | errAck (text : String)
  | system (roomId text createdAt : String)
  | roomMessage (roomId text username createdAt : String)
  | typing (roomId username : String) (isTyping : Bool)
  | readReceipt (roomId username : String) (timestamp : Nat)
  deriving DecidableEq, Repr

/-- Observable side effects of a handler, in program order: a sendEvent
invocation on a target socket, an awaited Room.updateOne touch of the
room record, or an awaited persistMessage attempt. -/
inductive Effect : Type
  | sendAttempt (ws : Nat) (frame : Frame)
  | touchRoom (roomId : String)
  | persistAttempt (roomId : String) (userId : Nat) (username : String)
      (mtype : String) (text : String)
  deriving DecidableEq, Repr

/-- readyState values of a ws socket (backend/wsUtils.js checks OPEN). -/
inductive ReadyState : Type
  | CONNECTING
  | OPEN
  | CLOSING
  | CLOSED
  deriving DecidableEq, Repr

/-- sendEvent from backend/wsUtils.js: the frame is written to the socket
only when readyState is OPEN; otherwise nothing happens. -/
def sendEvent (readyState : ReadyState) (frame : Frame) : Option Frame :=
  if readyState = ReadyState.OPEN then some frame else none

/-- A room record as returned by Room.findOne, with the fields canJoinRoom
reads. The member id lists default to empty, matching the falsy result of
optional chaining on absent fields. -/
structure RoomRecord : Type where
  type : String
  members : List Nat
  bannedMembers : List Nat
  deriving DecidableEq, Repr

/-- canJoinRoom from backend/services/rooms.js: a missing record denies,
public rooms always allow, banned members are denied, otherwise members
are allowed. -/
def canJoinRoom : Option RoomRecord → Nat → Bool
  | none, _ => false
  | some room, userId =>
      if room.type = "public" then true
      else if room.bannedMembers.contains userId then false
      else room.members.contains userId

/-- Per-socket metadata stored in the socketMeta map by the connection
handler in backend/ws.js; rooms is the joined-room Set. -/
structure SocketMeta : Type where
  userId : Nat
  username : String
  rooms : List String
  deriving DecidableEq, Repr

/-- State of the typing coordinator: the typingTimers two-level map from
backend/state.js (roomId, then userId.toString(), to the pending timer)
plus a counter allocating fresh setTimeout handles. Node timer handles
are always truthy, so handles start at 1. -/
structure TypingState : Type where
  typingTimers : List (String × List (String × Nat))
  nextId : Nat
  deriving DecidableEq, Repr

/-- getRoomTypingMap from backend/services/messages.js: the inner map for
the room, created empty when missing. -/
def getRoomTypingMap (s : TypingState) (roomId : String) : List (String × Nat) :=
  (mget roomId s.typingTimers).getD []

/-- scheduleTypingTimeout from backend/services/messages.js: clear any
pending timer for the key and store a fresh one. Clearing is modelled by
the old handle leaving the map while handles are never reused. -/
def scheduleTypingTimeout (s : TypingState) (roomId key : String) : TypingState :=
  let roomTyping := getRoomTypingMap s roomId
  { typingTimers := mset roomId (mset key s.nextId roomTyping) s.typingTimers,
    nextId := s.nextId + 1 }

/-- stopTypingForUser from backend/services/messages.js: clear and drop the
timer for the key when present, then garbage-collect an empty room map. -/
def stopTypingForUser (s : TypingState) (roomId key : String) : TypingState :=
  match mget roomId s.typingTimers with
  | none => s
  | some roomTyping =>
      let roomTyping2 :=
        if (mget key roomTyping).isSome then mdel key roomTyping else roomTyping
      let outer :=
        if roomTyping2.length = 0 then mdel roomId s.typingTimers
        else mset roomId roomTyping2 s.typingTimers
      { s with typingTimers := outer }

/-- Record of a typing timer expiry callback having run. -/
inductive TOut : Type
  | expired (roomId key : String) (id : Nat)
  deriving DecidableEq, Repr

/-- The timer handle carried by an expiry record. -/
def TOut.timerId : TOut → Nat
  | .expired _ _ id => id

/-- Locate the key under which a pending timer handle is stored. -/
def findTimer : List (String × List (String × Nat)) → Nat → Option (String × String)
  | [], _ => none
  | (r, inner) :: rest, id =>
      match inner.find? (fun p => p.2 == id) with
      | some p => some (r, p.1)
      | none => findTimer rest id

/-- Expiry of the setTimeout scheduled by scheduleTypingTimeout: the
callback runs only when the handle was not cleared, which holds exactly
when the handle is still stored; it removes its key, garbage-collects an
empty room map and invokes onTimeout. -/
def fireTimer (s : TypingState) (id : Nat) : TypingState × List TOut :=
  match findTimer s.typingTimers id with
  | none => (s, [])
  | some (r, key) =>
      let inner := (mget r s.typingTimers).getD []
      let inner2 := mdel key inner
      let outer :=
        if inner2.length = 0 then mdel r s.typingTimers
        else mset r inner2 s.typingTimers
      ({ s with typingTimers := outer }, [TOut.expired r key id])

/-- The in-memory engine state from backend/state.js: the rooms table
(roomId to subscriber Set of sockets), the socketMeta map, the typing
coordinator and the readReceipts map. -/
structure EngineState : Type where
  rooms : List (String × List Nat)
  socketMeta : List (Nat × SocketMeta)
  typing : TypingState
  readReceipts : List (String × List (String × Nat))
  deriving DecidableEq, Repr

/-- The empty engine state at server start. -/
def engineInit : EngineState :=
  { rooms := [], socketMeta := [], typing := { typingTimers := [], nextId := 1 },
    readReceipts := [] }

/-- The subscriber set of a room in a rooms table, empty when absent. -/
def rsub (rooms : List (String × List Nat)) (r : String) : List Nat :=
  (mget r rooms).getD []

/-- The subscriber set of a room, empty when the room has no entry. -/
def subsOf (st : EngineState) (r : String) : List Nat :=
  rsub st.rooms r

/-- The connection handler in backend/ws.js after successful identity
resolution: store fresh metadata with an empty joined-room set. -/
def connectSocket (st : EngineState) (ws userId : Nat) (username : String) :
    EngineState :=
  { st with socketMeta := mset ws ⟨userId, username, []⟩ st.socketMeta }

/-- The JOIN_ROOM handler in backend/ws.js. roomRecord is the result of
the awaited Room.findOne; persistOk tells whether the awaited
persistMessage resolves — when it rejects, the handler aborts before the
SYSTEM broadcast loop. -/
def joinRoom (st : EngineState) (ws : Nat) (roomId : String)
    (roomRecord : Option RoomRecord) (persistOk : Bool) (createdAt : String) :
    EngineState × List Effect :=
  match mget ws st.socketMeta with
  | none => (st, [])
  | some meta =>
      match roomRecord with
      | none => (st, [.sendAttempt ws (.errAck "Room does not exist")])
      | some rec =>
          if ¬ canJoinRoom (some rec) meta.userId then
            (st, [.sendAttempt ws (.errAck "Access denied")])
          else
            let rooms1 :=
              if (mget roomId st.rooms).isSome then st.rooms
              else mset roomId [] st.rooms
            let room := sadd ws ((mget roomId rooms1).getD [])
            let st2 := { st with
              rooms := mset roomId room rooms1,
              socketMeta :=
                mset ws { meta with rooms := sadd roomId meta.rooms } st.socketMeta }
            let text := meta.username ++ " joined " ++ roomId
            let effs := [Effect.touchRoom roomId,
              .sendAttempt ws (.ack ("Joined room " ++ roomId)),
              .persistAttempt roomId meta.userId meta.username "SYSTEM" text]
            if persistOk then
              (st2, effs ++ room.map (fun c =>
                Effect.sendAttempt c (.system roomId text createdAt)))
            else
              (st2, effs)

/-- The SEND_MESSAGE handler in backend/ws.js: silently dropped unless the
joined-room set contains the room and the room table has an entry; on
acceptance touch the room record, persist, then broadcast — the broadcast
loop runs only when the awaited persistMessage resolves. -/
def sendMessage (st : EngineState) (ws : Nat) (roomId text : String)
    (persistOk : Bool) (createdAt : String) : EngineState × List Effect :=
  match mget ws st.socketMeta with
  | none => (st, [])
  | some meta =>
      if ¬ meta.rooms.contains roomId then (st, [])
      else
        match mget roomId st.rooms with
        | none => (st, [])
        | some room =>
            let effs := [Effect.touchRoom roomId,
              Effect.persistAttempt roomId meta.userId meta.username
                "ROOM_MESSAGE" text]
            if persistOk then
              (st, effs ++ room.map (fun c =>
                Effect.sendAttempt c (.roomMessage roomId text meta.username createdAt)))
            else
              (st, effs)

/-- The TYPING handler in backend/ws.js: silently dropped unless
subscribed; arms or cancels the typing timer and broadcasts the state. -/
def typingHandler (st : EngineState) (ws : Nat) (roomId : String)
    (isTyping : Bool) : EngineState × List Effect :=
  match mget ws st.socketMeta with
  | none => (st, [])
  | some meta =>
      if ¬ meta.rooms.contains roomId then (st, [])
      else
        match mget roomId st.rooms with
        | none => (st, [])
        | some room =>
            let typing2 :=
              if isTyping then
                scheduleTypingTimeout st.typing roomId (toString meta.userId)
              else stopTypingForUser st.typing roomId (toString meta.userId)
            ({ st with typing := typing2 },
              room.map (fun c =>
                Effect.sendAttempt c (.typing roomId meta.username isTyping)))

/-- updateReadReceipt from backend/services/messages.js: last-write-wins
timestamp for the (roomId, userId) key. -/
def updateReadReceipt (m : List (String × List (String × Nat)))
    (roomId key : String) (now : Nat) : List (String × List (String × Nat)) :=
  mset roomId (mset key now ((mget roomId m).getD [])) m

/-- The READ_RECEIPT handler in backend/ws.js: silently dropped unless
subscribed; updates the tracker and broadcasts the receipt. -/
def readReceiptHandler (st : EngineState) (ws : Nat) (roomId : String)
    (now : Nat) : EngineState × List Effect :=
  match mget ws st.socketMeta with
  | none => (st, [])
  | some meta =>
      if ¬ meta.rooms.contains roomId then (st, [])
      else
        match mget roomId st.rooms with
        | none => (st, [])
        | some room =>
            ({ st with
                readReceipts :=
                  updateReadReceipt st.readReceipts roomId (toString meta.userId) now },
              room.map (fun c =>
                Effect.sendAttempt c (.readReceipt roomId meta.username now)))

/-- The body of the close handler loop in backend/ws.js, one iteration per
joined room: skip rooms without a table entry, cancel the typing timer,
broadcast a synthetic stopped-typing frame, persist the SYSTEM leave
notice (aborting the whole handler when the awaited call rejects),
broadcast the notice, remove the socket and garbage-collect an empty
room. The returned flag tells whether the loop ran to completion. -/
def closeRooms (ws userId : Nat) (username : String) (persistOk : Bool)
    (createdAt : String) : EngineState → List String →
    EngineState × List Effect × Bool
  | st, [] => (st, [], true)
  | st, roomId :: rest =>
      match mget roomId st.rooms with
      | none => closeRooms ws userId username persistOk createdAt st rest
      | some room =>
          let st1 := { st with
            typing := stopTypingForUser st.typing roomId (toString userId) }
          let effs1 := room.map (fun c =>
            Effect.sendAttempt c (.typing roomId username false))
          let text := username ++ " left " ++ roomId
          let effs2 := effs1 ++
            [Effect.persistAttempt roomId userId username "SYSTEM" text]
          if persistOk then
            let effs3 := effs2 ++ room.map (fun c =>
              Effect.sendAttempt c (.system roomId text createdAt))
            let room2 := room.erase ws
            let st2 := { st1 with
              rooms :=
                if room2.length = 0 then mdel roomId st1.rooms
                else mset roomId room2 st1.rooms }
            let res := closeRooms ws userId username persistOk createdAt st2 rest
            (res.1, effs3 ++ res.2.1, res.2.2)
          else
            (st1, effs2, false)

/-- The close handler in backend/ws.js: run the per-room teardown loop for
every room in the joined-room set, then drop the socket metadata — the
final delete is reached only when no awaited call rejected. -/
def closeConn (st : EngineState) (ws : Nat) (persistOk : Bool)
    (createdAt : String) : EngineState × List Effect :=
  match mget ws st.socketMeta with
  | none => (st, [])
  | some meta =>
      let res := closeRooms ws meta.userId meta.username persistOk createdAt
        st meta.rooms
      if res.2.2 then
        ({ res.1 with socketMeta := mdel ws res.1.socketMeta }, res.2.1)
      else
        (res.1, res.2.1)

/-- The test applied to each client in removeUserFromRoom: it matches when
the socket has metadata and its userId equals the removed user. -/
def modHits (metaMap : List (Nat × SocketMeta)) (userId c : Nat) : Bool :=
  match mget c metaMap with
  | some m => m.userId == userId
  | none => false

/-- removeUserFromRoom from backend/services/rooms.js (moderation): drop
every subscribed socket of the user from the room and the room from each
of those sockets own joined-room sets, then garbage-collect. Sockets
without metadata are skipped. -/
def removeUserFromRoom (st : EngineState) (roomId : String) (userId : Nat) :
    EngineState :=
  match mget roomId st.rooms with
  | none => st
  | some room =>
      let room2 := room.filter (fun c => ¬ modHits st.socketMeta userId c)
      let meta2 := st.socketMeta.map (fun p =>
        (p.1, if room.contains p.1 && modHits st.socketMeta userId p.1 then
          { p.2 with rooms := p.2.rooms.erase roomId } else p.2))
      { st with
        rooms :=
          if room2.length = 0 then mdel roomId st.rooms
          else mset roomId room2 st.rooms,
        socketMeta := meta2 }

/-- One engine operation, as dispatched by setupWebSocket: a successful
authentication, an inbound frame handler, a socket close, a moderation
removal or a typing timer expiry. External inputs (the Room.findOne
result, whether an awaited persistMessage resolves, clock readings) are
carried in the operation. -/
inductive Op : Type
  | connect (ws userId : Nat) (username : String)
  | join (ws : Nat) (roomId : String) (roomRecord : Option RoomRecord)
      (persistOk : Bool) (createdAt : String)
  | send (ws : Nat) (roomId text : String) (persistOk : Bool) (createdAt : String)
  | typingOp (ws : Nat) (roomId : String) (isTyping : Bool)
  | readOp (ws : Nat) (roomId : String) (now : Nat)
  | close (ws : Nat) (persistOk : Bool) (createdAt : String)
  | moderation (roomId : String) (userId : Nat)
  | fire (id : Nat)

/-- Dispatch of one operation against the engine state. -/
def applyOp (st : EngineState) : Op → EngineState × List Effect
  | .connect ws u n => (connectSocket st ws u n, [])
  | .join ws r rec p ca => joinRoom st ws r rec p ca
  | .send ws r t p ca => sendMessage st ws r t p ca
  | .typingOp ws r b => typingHandler st ws r b
  | .readOp ws r now => readReceiptHandler st ws r now
  | .close ws p ca => closeConn st ws p ca
  | .moderation r u => (removeUserFromRoom st r u, [])
  | .fire id => ({ st with typing := (fireTimer st.typing id).1 }, [])

/-- Runtime preconditions the transport guarantees: a fresh socket object
has no metadata yet and sits in no subscriber set. -/
def validOp (st : EngineState) : Op → Prop
  | .connect ws _ _ => mget ws st.socketMeta = none ∧ ∀ r, ws ∉ subsOf st r
  | _ => True

/-- An operation completes when no awaited persistence call rejected
mid-handler; other operations always complete. -/
def opCompletes : Op → Prop
  | .join _ _ _ persistOk _ => persistOk = true
  | .send _ _ _ persistOk _ => persistOk = true
  | .close _ persistOk _ => persistOk = true
  | _ => True

/-- A durable user-status write issued by the presence tracking in the
extended setupWebSocket (User.updateOne on status). -/
inductive StatusUpdate : Type
  | setOnline (userId : String)
  | setOffline (userId : String)
  deriving DecidableEq, Repr

/-- The presence tracker state: the onlineUsers map from backend/state.js,
userId.toString() to the Set of live sockets of that user. -/
structure PresenceState : Type where
  onlineUsers : List (String × List Nat)
  deriving DecidableEq, Repr

/-- Presence tracking in the connection handler of the extended
setupWebSocket: on the first connection of a user create the entry and
set the durable status to online, then add the socket to the set. -/
def presenceConnect (st : PresenceState) (userId : String) (ws : Nat) :
    PresenceState × List StatusUpdate :=
  match mget userId st.onlineUsers with
  | none =>
      ({ onlineUsers := mset userId (sadd ws []) st.onlineUsers },
        [StatusUpdate.setOnline userId])
  | some s =>
      ({ onlineUsers := mset userId (sadd ws s) st.onlineUsers }, [])

/-- Presence tracking in the close handler of the extended setupWebSocket:
remove the socket from the user entry; when the set becomes empty, drop
the entry and set the durable status to offline. -/
def presenceClose (st : PresenceState) (userId : String) (ws : Nat) :
    PresenceState × List StatusUpdate :=
  match mget userId st.onlineUsers with
  | none => (st, [])
  | some s =>
      let s2 := s.erase ws
      if s2.length = 0 then
        ({ onlineUsers := mdel userId st.onlineUsers },
          [StatusUpdate.setOffline userId])
      else
        ({ onlineUsers := mset userId s2 st.onlineUsers }, [])

/-- A user is recorded online when the onlineUsers map has an entry. -/
def isOnline (st : PresenceState) (userId : String) : Bool :=
  (mget userId st.onlineUsers).isSome

/-- Well-formedness of the presence tracker: distinct user keys, and every
stored socket set is non-empty and duplicate-free. -/
def PWF (st : PresenceState) : Prop :=
  (st.onlineUsers.map Prod.fst).Nodup ∧
    ∀ p ∈ st.onlineUsers, p.2 ≠ [] ∧ p.2.Nodup

instance (st : PresenceState) : Decidable (PWF st) := by
  unfold PWF; infer_instance

/-- An event against the typing coordinator of
backend/services/messages.js: arming via scheduleTypingTimeout, an
explicit cancel via stopTypingForUser, or the expiry of the setTimeout
with the given handle. -/
inductive TEvent : Type
  | arm (roomId key : String)
  | cancel (roomId key : String)
  | fire (id : Nat)
  deriving DecidableEq, Repr

/-- One step of the typing coordinator. -/
def tstep (s : TypingState) : TEvent → TypingState × List TOut
  | .arm r k => (scheduleTypingTimeout s r k, [])
  | .cancel r k => (stopTypingForUser s r k, [])
  | .fire id => fireTimer s id

/-- Run a list of typing coordinator events, collecting expiry records. -/
def trun (s : TypingState) : List TEvent → TypingState × List TOut
  | [] => (s, [])
  | e :: es =>
      let r1 := tstep s e
      let r2 := trun r1.1 es
      (r2.1, r1.2 ++ r2.2)

/-- A pending, uncleared timer with the given handle exists somewhere in
the coordinator. -/
def idActive (s : TypingState) (id : Nat) : Prop :=
  ∃ p ∈ s.typingTimers, ∃ q ∈ p.2, q.2 = id

instance (s : TypingState) (id : Nat) : Decidable (idActive s id) := by
  unfold idActive; infer_instance

/-- The pending timer handle stored for a (roomId, key) pair, if any. -/
def timerFor (s : TypingState) (roomId key : String) : Option Nat :=
  mget key (getRoomTypingMap s roomId)

/-- Count of expiry records carrying the given timer handle. -/
def countExpired (outs : List TOut) (id : Nat) : Nat :=
  outs.countP (fun o => o.timerId == id)

/-- Well-formedness of the typing coordinator: distinct room keys,
distinct user keys in each room map, each pending handle stored at a
single location, and every pending handle below the allocation counter. -/
def TWF (s : TypingState) : Prop :=
  (s.typingTimers.map Prod.fst).Nodup ∧
    (∀ p ∈ s.typingTimers, (p.2.map Prod.fst).Nodup) ∧
    (∀ p1 ∈ s.typingTimers, ∀ q1 ∈ p1.2, ∀ p2 ∈ s.typingTimers, ∀ q2 ∈ p2.2,
      q1.2 = q2.2 → p1.1 = p2.1 ∧ q1.1 = q2.1) ∧
    ∀ p ∈ s.typingTimers, ∀ q ∈ p.2, q.2 < s.nextId

instance (s : TypingState) : Decidable (TWF s) := by
  unfold TWF; infer_instance

/-- Membership of a room in the joined-room set recorded for a socket in
a socketMeta map; false when the socket has no metadata. -/
def inMeta (metaMap : List (Nat × SocketMeta)) (c : Nat) (r : String) : Bool :=
  match mget c metaMap with
  | some m => r ∈ m.rooms
  | none => false

/-- Membership of a room in the joined-room set recorded for a socket;
false when the socket has no metadata. -/
def inMetaRooms (st : EngineState) (c : Nat) (r : String) : Bool :=
  inMeta st.socketMeta c r

/-- Well-formedness of a rooms table and a socketMeta map: distinct keys
in both maps, duplicate-free subscriber sets and joined-room sets, and
the bidirectional membership invariant in both directions. -/
def WF2 (rooms : List (String × List Nat))
    (metaMap : List (Nat × SocketMeta)) : Prop :=
  (rooms.map Prod.fst).Nodup ∧
    (metaMap.map Prod.fst).Nodup ∧
    (∀ p ∈ rooms, p.2.Nodup) ∧
    (∀ q ∈ metaMap, q.2.rooms.Nodup) ∧
    (∀ p ∈ rooms, ∀ c ∈ p.2, inMeta metaMap c p.1 = true) ∧
    ∀ q ∈ metaMap, ∀ r ∈ q.2.rooms, q.1 ∈ rsub rooms r

instance (rooms : List (String × List Nat)) (metaMap : List (Nat × SocketMeta)) :
    Decidable (WF2 rooms metaMap) := by
  unfold WF2; infer_instance

/-- Well-formedness of the engine state. -/
def WF (st : EngineState) : Prop :=
  WF2 st.rooms st.socketMeta

instance (st : EngineState) : Decidable (WF st) := by
  unfold WF; infer_instance

/-- Combined inductive invariant of the engine: the rooms and socketMeta
maps are well-formed and so is the typing coordinator. -/
def EWF (st : EngineState) : Prop :=
  WF st ∧ TWF st.typing

instance (st : EngineState) : Decidable (EWF st) := by
  unfold EWF; infer_instance

section MapLemmas

variable {α β : Type} [DecidableEq α]

theorem mget_mset_self (k : α) (v : β) (l : List (α × β)) :
    mget k (mset k v l) = some v := by
  induction l with
  | nil => simp [mget, mset]
  | cons p rest ih =>
      rcases p with ⟨pk, pv⟩
      by_cases h : pk = k
      · simp [mset, mget, h]
      · simp [mset, mget, h, ih]

theorem mget_mset_ne (k k2 : α) (v : β) (l : List (α × β)) (h : k2 ≠ k) :
    mget k2 (mset k v l) = mget k2 l := by
  have h1 : ¬ (k = k2) := fun hh => h hh.symm
  induction l with
  | nil => simp only [mset, mget, if_neg h1]
  | cons p rest ih =>
      rcases p with ⟨pk, pv⟩
      by_cases hp : pk = k
      · have h2 : ¬ (pk = k2) := by rw [hp]; exact h1
        simp only [mset, if_pos hp, mget, if_neg h1, if_neg h2]
      · simp only [mset, if_neg hp, mget]
        by_cases hq : pk = k2
        · simp only [if_pos hq]
        · simp only [if_neg hq, ih]

theorem mset_eq_self (k : α) (v : β) (l : List (α × β)) (h : mget k l = some v) :
    mset k v l = l := by
  induction l with
  | nil => simp [mget] at h
  | cons p rest ih =>
      rcases p with ⟨pk, pv⟩
      by_cases hp : pk = k
      · simp only [mget, if_pos hp] at h
        have hv : pv = v := Option.some.inj h
        simp only [mset, if_pos hp]
        rw [← hp, ← hv]
      · simp only [mget, if_neg hp] at h
        simp only [mset, if_neg hp, ih h]

theorem mget_mdel_ne (k k2 : α) (l : List (α × β)) (h : k2 ≠ k) :
    mget k2 (mdel k l) = mget k2 l := by
  induction l with
  | nil => simp [mdel]
  | cons p rest ih =>
      rcases p with ⟨pk, pv⟩
      by_cases hp : pk = k
      · have h2 : ¬ (pk = k2) := by rw [hp]; exact fun hh => h hh.symm
        simp only [mdel, if_pos hp, mget, if_neg h2]
      · simp only [mdel, if_neg hp, mget]
        by_cases hq : pk = k2
        · simp only [if_pos hq]
        · simp only [if_neg hq, ih]

theorem mget_none_iff (k : α) (l : List (α × β)) :
    mget k l = none ↔ k ∉ l.map Prod.fst := by
  induction l with
  | nil => simp [mget]
  | cons p rest ih =>
      rcases p with ⟨pk, pv⟩
      by_cases hp : pk = k
      · simp [mget, hp]
      · simp only [mget, if_neg hp, List.map_cons, List.mem_cons, ih]
        constructor
        · intro hnk hor
          rcases hor with hor | hor
          · exact hp hor.symm
          · exact hnk hor
        · intro hall hk
          exact hall (Or.inr hk)

theorem mget_isSome_iff (k : α) (l : List (α × β)) :
    (mget k l).isSome = true ↔ k ∈ l.map Prod.fst := by
  constructor
  · intro hs
    by_contra hk
    rw [← mget_none_iff] at hk
    rw [hk] at hs
    simp at hs
  · intro hk
    cases h : mget k l with
    | none => exact absurd hk ((mget_none_iff k l).mp h)
    | some v => simp

theorem keys_mset (k : α) (v : β) (l : List (α × β)) :
    (mset k v l).map Prod.fst =
      if k ∈ l.map Prod.fst then l.map Prod.fst else l.map Prod.fst ++ [k] := by
  induction l with
  | nil => simp [mset]
  | cons p rest ih =>
      rcases p with ⟨pk, pv⟩
      by_cases hp : pk = k
      · simp [mset, hp]
      · have hne : ¬ (k = pk) := fun hh => hp hh.symm
        by_cases hk : k ∈ rest.map Prod.fst <;>
          simp [mset, hp, ih, hk, hne]

theorem nodup_keys_mset (k : α) (v : β) (l : List (α × β))
    (h : (l.map Prod.fst).Nodup) : ((mset k v l).map Prod.fst).Nodup := by
  rw [keys_mset]
  by_cases hk : k ∈ l.map Prod.fst
  · simpa [hk]
  · simp [hk, List.nodup_append, h]

theorem keys_mdel_sublist (k : α) (l : List (α × β)) :
    ((mdel k l).map Prod.fst).Sublist (l.map Prod.fst) := by
  induction l with
  | nil => simp [mdel]
  | cons p rest ih =>
      rcases p with ⟨pk, pv⟩
      by_cases hp : pk = k
      · simp only [mdel, if_pos hp, List.map_cons]
        exact List.sublist_cons_self _ _
      · simp only [mdel, if_neg hp, List.map_cons]
        exact ih.cons₂ pk

theorem nodup_keys_mdel (k : α) (l : List (α × β))
    (h : (l.map Prod.fst).Nodup) : ((mdel k l).map Prod.fst).Nodup :=
  (keys_mdel_sublist k l).nodup h

theorem mget_mdel_self (k : α) (l : List (α × β))
    (h : (l.map Prod.fst).Nodup) : mget k (mdel k l) = none := by
  induction l with
  | nil => simp [mdel, mget]
  | cons p rest ih =>
      rcases p with ⟨pk, pv⟩
      rw [List.map_cons, List.nodup_cons] at h
      by_cases hp : pk = k
      · simp only [mdel, if_pos hp]
        rw [mget_none_iff]
        intro hk
        exact h.1 (hp ▸ hk)
      · simp [mdel, hp, mget, ih h.2]

theorem mset_mset_self (k : α) (v w : β) (l : List (α × β)) :
    mset k v (mset k w l) = mset k v l := by
  induction l with
  | nil => simp [mset]
  | cons p rest ih =>
      rcases p with ⟨pk, pv⟩
      by_cases hp : pk = k
      · simp [mset, hp]
      · simp [mset, hp, ih]

theorem mset_eq_append (k : α) (v : β) (l : List (α × β))
    (h : mget k l = none) : mset k v l = l ++ [(k, v)] := by
  induction l with
  | nil => simp [mset]
  | cons p rest ih =>
      rcases p with ⟨pk, pv⟩
      by_cases hp : pk = k
      · simp [mget, hp] at h
      · simp only [mget, if_neg hp] at h
        simp [mset, hp, ih h]

theorem keys_map_entries (l : List (α × β)) (h : α → β → β) :
    (l.map (fun p => (p.1, h p.1 p.2))).map Prod.fst = l.map Prod.fst := by
  induction l with
  | nil => rfl
  | cons p rest ih => simp [ih]

theorem mget_map_entries (k : α) (l : List (α × β)) (h : α → β → β) :
    mget k (l.map (fun p => (p.1, h p.1 p.2))) = (mget k l).map (h k) := by
  induction l with
  | nil => simp [mget]
  | cons p rest ih =>
      rcases p with ⟨pk, pv⟩
      by_cases hp : pk = k
      · subst hp; simp [mget, ih]
      · simp [mget, hp, ih]

end MapLemmas

section SetLemmas

variable {α : Type} [DecidableEq α]

theorem mem_sadd (a b : α) (l : List α) : b ∈ sadd a l ↔ b = a ∨ b ∈ l := by
  by_cases h : a ∈ l
  · simp only [sadd, if_pos h]
    constructor
    · exact Or.inr
    · rintro (rfl | hb)
      · exact h
      · exact hb
  · simp [sadd, if_neg h, or_comm]

theorem nodup_sadd (a : α) (l : List α) (h : l.Nodup) : (sadd a l).Nodup := by
  by_cases ha : a ∈ l
  · simpa [sadd, ha]
  · simp [sadd, ha, List.nodup_append, h]

theorem sadd_eq_self (a : α) (l : List α) (h : a ∈ l) : sadd a l = l := by
  simp [sadd, h]

theorem length_sadd_of_mem (a : α) (l : List α) (h : a ∈ l) :
    (sadd a l).length = l.length := by
  simp [sadd, h]

end SetLemmas

section MapMemLemmas

variable {α β : Type} [DecidableEq α]

theorem mget_some_mem {k : α} {v : β} {l : List (α × β)}
    (h : mget k l = some v) : (k, v) ∈ l := by
  induction l with
  | nil => simp [mget] at h
  | cons p rest ih =>
      rcases p with ⟨pk, pv⟩
      by_cases hp : pk = k
      · simp only [mget, if_pos hp] at h
        have hv := Option.some.inj h
        exact List.mem_cons.mpr (Or.inl (by rw [hp, hv]))
      · simp only [mget, if_neg hp] at h
        exact List.mem_cons.mpr (Or.inr (ih h))

theorem mem_mget {k : α} {v : β} {l : List (α × β)}
    (hnd : (l.map Prod.fst).Nodup) (h : (k, v) ∈ l) : mget k l = some v := by
  induction l with
  | nil => simp at h
  | cons p rest ih =>
      rcases p with ⟨pk, pv⟩
      rw [List.map_cons, List.nodup_cons] at hnd
      rcases List.mem_cons.mp h with h | h
      · have hk : k = pk := congrArg Prod.fst h
        have hv : v = pv := congrArg Prod.snd h
        simp only [mget, if_pos hk.symm, hv]
      · have hp : ¬ (pk = k) := by
          intro hh
          apply hnd.1
          rw [hh]
          exact List.mem_map.mpr ⟨(k, v), h, rfl⟩
        simp only [mget, if_neg hp]
        exact ih hnd.2 h

end MapMemLemmas

theorem canJoinRoom_iff (rec : RoomRecord) (userId : Nat) :
    canJoinRoom (some rec) userId = true ↔
      (rec.type = "public" ∨
        (userId ∈ rec.members ∧ userId ∉ rec.bannedMembers)) := by
  unfold canJoinRoom
  by_cases ht : rec.type = "public"
  · simp [ht]
  · by_cases hb : userId ∈ rec.bannedMembers
    · simp [ht, hb]
    · by_cases hm : userId ∈ rec.members <;> simp [ht, hb, hm]

theorem inMeta_true_iff (metaMap : List (Nat × SocketMeta)) (c : Nat)
    (r : String) :
    inMeta metaMap c r = true ↔
      ∃ m, mget c metaMap = some m ∧ r ∈ m.rooms := by
  unfold inMeta
  cases h : mget c metaMap with
  | none => simp
  | some m => simp

theorem inMetaRooms_true_iff (st : EngineState) (c : Nat) (r : String) :
    inMetaRooms st c r = true ↔
      ∃ m, mget c st.socketMeta = some m ∧ r ∈ m.rooms :=
  inMeta_true_iff st.socketMeta c r

theorem inMeta_eq_of_mget (metaMap : List (Nat × SocketMeta)) (c : Nat)
    (r : String) (m : SocketMeta) (hm : mget c metaMap = some m) :
    (inMeta metaMap c r = true ↔ r ∈ m.rooms) := by
  unfold inMeta
  rw [hm]
  simp

theorem mem_rsub_iff (rooms : List (String × List Nat)) (c : Nat)
    (r : String) :
    c ∈ rsub rooms r ↔ ∃ s, mget r rooms = some s ∧ c ∈ s := by
  unfold rsub
  cases h : mget r rooms with
  | none => simp
  | some s => simp

theorem mem_subsOf_iff (st : EngineState) (c : Nat) (r : String) :
    c ∈ subsOf st r ↔ ∃ s, mget r st.rooms = some s ∧ c ∈ s :=
  mem_rsub_iff st.rooms c r

theorem wf2_subs_nodup {rooms : List (String × List Nat)}
    {metaMap : List (Nat × SocketMeta)} (hWF : WF2 rooms metaMap) :
    ∀ r s, mget r rooms = some s → s.Nodup :=
  fun _ s h => hWF.2.2.1 (_, s) (mget_some_mem h)

theorem wf_subs_nodup (st : EngineState) (hWF : WF st) :
    ∀ r s, mget r st.rooms = some s → s.Nodup :=
  wf2_subs_nodup hWF

theorem wf2_meta_rooms_nodup {rooms : List (String × List Nat)}
    {metaMap : List (Nat × SocketMeta)} (hWF : WF2 rooms metaMap) :
    ∀ c m, mget c metaMap = some m → m.rooms.Nodup :=
  fun _ m h => hWF.2.2.2.1 (_, m) (mget_some_mem h)

theorem wf_meta_rooms_nodup (st : EngineState) (hWF : WF st) :
    ∀ c m, mget c st.socketMeta = some m → m.rooms.Nodup :=
  wf2_meta_rooms_nodup hWF

theorem rsub_nodup {rooms : List (String × List Nat)}
    {metaMap : List (Nat × SocketMeta)} (hWF : WF2 rooms metaMap)
    (r : String) : (rsub rooms r).Nodup := by
  unfold rsub
  cases h : mget r rooms with
  | none => simp
  | some s => simpa using wf2_subs_nodup hWF r s h

theorem wf2_bidir {rooms : List (String × List Nat)}
    {metaMap : List (Nat × SocketMeta)} (hWF : WF2 rooms metaMap) :
    ∀ c r, c ∈ rsub rooms r ↔ inMeta metaMap c r = true := by
  intro c r
  constructor
  · intro hc
    obtain ⟨s, hs, hcs⟩ := (mem_rsub_iff rooms c r).mp hc
    exact hWF.2.2.2.2.1 (r, s) (mget_some_mem hs) c hcs
  · intro hm
    obtain ⟨m, hmm, hr⟩ := (inMeta_true_iff metaMap c r).mp hm
    exact hWF.2.2.2.2.2 (c, m) (mget_some_mem hmm) r hr

theorem wf_bidir (st : EngineState) (hWF : WF st) :
    ∀ c r, c ∈ subsOf st r ↔ inMetaRooms st c r = true :=
  wf2_bidir hWF

theorem wf2_intro (rooms : List (String × List Nat))
    (metaMap : List (Nat × SocketMeta))
    (h1 : (rooms.map Prod.fst).Nodup)
    (h2 : (metaMap.map Prod.fst).Nodup)
    (h3 : ∀ r s, mget r rooms = some s → s.Nodup)
    (h4 : ∀ c m, mget c metaMap = some m → m.rooms.Nodup)
    (h5 : ∀ c r, c ∈ rsub rooms r ↔ inMeta metaMap c r = true) :
    WF2 rooms metaMap := by
  refine ⟨h1, h2, ?_, ?_, ?_, ?_⟩
  · intro p hp
    exact h3 p.1 p.2 (mem_mget h1 hp)
  · intro q hq
    exact h4 q.1 q.2 (mem_mget h2 hq)
  · intro p hp c hc
    refine (h5 c p.1).mp ?_
    rw [mem_rsub_iff]
    exact ⟨p.2, mem_mget h1 hp, hc⟩
  · intro q hq r hr
    refine (h5 q.1 r).mpr ?_
    rw [inMeta_true_iff]
    exact ⟨q.2, mem_mget h2 hq, hr⟩

theorem joinRoom_success_eq (st : EngineState) (ws : Nat)
    (roomId createdAt : String) (rec : RoomRecord) (persistOk : Bool)
    (meta : SocketMeta)
    (hmeta : mget ws st.socketMeta = some meta)
    (hc : canJoinRoom (some rec) meta.userId = true) :
    joinRoom st ws roomId (some rec) persistOk createdAt =
      ({ st with
          rooms := mset roomId (sadd ws (subsOf st roomId)) st.rooms,
          socketMeta :=
            mset ws { meta with rooms := sadd roomId meta.rooms } st.socketMeta },
        [Effect.touchRoom roomId,
          Effect.sendAttempt ws (Frame.ack ("Joined room " ++ roomId)),
          Effect.persistAttempt roomId meta.userId meta.username "SYSTEM"
            (meta.username ++ " joined " ++ roomId)] ++
        (if persistOk then (sadd ws (subsOf st roomId)).map (fun c =>
            Effect.sendAttempt c (Frame.system roomId
              (meta.username ++ " joined " ++ roomId) createdAt))
          else [])) := by
  cases hkey : mget roomId st.rooms with
  | none =>
      simp only [joinRoom, hmeta, subsOf, rsub, hkey]
      rw [if_neg (by simp [hc])]
      simp only [hkey, mset_mset_self, mget_mset_self, Option.getD_some,
        Option.getD_none, Option.isSome_none, Bool.false_eq_true, if_false]
      cases persistOk <;> simp
  | some s =>
      simp only [joinRoom, hmeta, subsOf, rsub, hkey]
      rw [if_neg (by simp [hc])]
      simp only [hkey, Option.isSome_some, if_true, Option.getD_some]
      cases persistOk <;> simp

theorem join_rejoin_state_eq (st : EngineState) (ws : Nat)
    (roomId createdAt : String) (rec : RoomRecord) (persistOk : Bool)
    (meta : SocketMeta)
    (hWF : WF st)
    (hmeta : mget ws st.socketMeta = some meta)
    (hjoined : roomId ∈ meta.rooms)
    (hc : canJoinRoom (some rec) meta.userId = true) :
    joinRoom st ws roomId (some rec) persistOk createdAt =
      (st,
        [Effect.touchRoom roomId,
          Effect.sendAttempt ws (Frame.ack ("Joined room " ++ roomId)),
          Effect.persistAttempt roomId meta.userId meta.username "SYSTEM"
            (meta.username ++ " joined " ++ roomId)] ++
        (if persistOk then (subsOf st roomId).map (fun c =>
            Effect.sendAttempt c (Frame.system roomId
              (meta.username ++ " joined " ++ roomId) createdAt))
          else [])) := by
  have hsubs : ws ∈ subsOf st roomId :=
    hWF.2.2.2.2.2 (ws, meta) (mget_some_mem hmeta) roomId hjoined
  have h1 : sadd ws (subsOf st roomId) = subsOf st roomId :=
    sadd_eq_self ws _ hsubs
  obtain ⟨s, hs, hcs⟩ := (mem_subsOf_iff st ws roomId).mp hsubs
  have hsubs_eq : subsOf st roomId = s := by
    unfold subsOf rsub
    rw [hs]
    rfl
  have h3 : mset roomId (sadd ws (subsOf st roomId)) st.rooms = st.rooms := by
    rw [h1, hsubs_eq]
    exact mset_eq_self roomId s st.rooms hs
  have h2 : sadd roomId meta.rooms = meta.rooms := sadd_eq_self _ _ hjoined
  have h4 : mset ws { meta with rooms := sadd roomId meta.rooms } st.socketMeta =
      st.socketMeta := by
    rw [h2]
    exact mset_eq_self ws meta st.socketMeta hmeta
  rw [joinRoom_success_eq st ws roomId createdAt rec persistOk meta hmeta hc,
    h3, h4, h1]

/-- Claim C3 counterexample: with connection 1 already subscribed to room
general, a second non-forced JOIN_ROOM re-persists the SYSTEM join notice
and re-broadcasts it, so the rejoin is not free of duplicate join
notifications. -/
theorem c3_counterexample :
    Effect.persistAttempt "general" 10 "alice" "SYSTEM" "alice joined general" ∈
      (joinRoom ⟨[("general", [1])], [(1, ⟨10, "alice", ["general"]⟩)],
        ⟨[], 1⟩, []⟩ 1 "general" (some ⟨"public", [], []⟩) true "t").2 ∧
    Effect.sendAttempt 1 (Frame.system "general" "alice joined general" "t") ∈
      (joinRoom ⟨[("general", [1])], [(1, ⟨10, "alice", ["general"]⟩)],
        ⟨[], 1⟩, []⟩ 1 "general" (some ⟨"public", [], []⟩) true "t").2 := by
  constructor <;> decide

/-- Claim C3 as amended: processing a second, non-forced JOIN_ROOM for a
room the connection is already subscribed to leaves the engine state
unchanged, but it is not silent: the handler persists the SYSTEM join
notice again and broadcasts it to the full subscriber set, exactly as a
first join does (the code has no force flag distinguishing rejoins). -/
theorem c3_rejoin_keeps_state_but_renotifies (st : EngineState) (ws : Nat)
    (roomId createdAt : String) (rec : RoomRecord) (meta : SocketMeta)
    (hWF : WF st)
    (hmeta : mget ws st.socketMeta = some meta)
    (hjoined : roomId ∈ meta.rooms)
    (hc : canJoinRoom (some rec) meta.userId = true) :
    joinRoom st ws roomId (some rec) true createdAt =
      (st,
        [Effect.touchRoom roomId,
          Effect.sendAttempt ws (Frame.ack ("Joined room " ++ roomId)),
          Effect.persistAttempt roomId meta.userId meta.username "SYSTEM"
            (meta.username ++ " joined " ++ roomId)] ++
        (subsOf st roomId).map (fun c =>
          Effect.sendAttempt c (Frame.system roomId
            (meta.username ++ " joined " ++ roomId) createdAt))) := by
  rw [join_rejoin_state_eq st ws roomId createdAt rec true meta hWF hmeta
    hjoined hc]
  simp

theorem c3_witness :
    WF ⟨[("general", [1])], [(1, ⟨10, "alice", ["general"]⟩)], ⟨[], 1⟩, []⟩ ∧
    joinRoom ⟨[("general", [1])], [(1, ⟨10, "alice", ["general"]⟩)], ⟨[], 1⟩, []⟩
        1 "general" (some ⟨"public", [], []⟩) true "t" =
      (⟨[("general", [1])], [(1, ⟨10, "alice", ["general"]⟩)], ⟨[], 1⟩, []⟩,
        [Effect.touchRoom "general",
          Effect.sendAttempt 1 (Frame.ack ("Joined room " ++ "general")),
          Effect.persistAttempt "general" 10 "alice" "SYSTEM"
            ("alice" ++ " joined " ++ "general")] ++
        (subsOf ⟨[("general", [1])], [(1, ⟨10, "alice", ["general"]⟩)],
            ⟨[], 1⟩, []⟩ "general").map (fun c =>
          Effect.sendAttempt c (Frame.system "general"
            ("alice" ++ " joined " ++ "general") "t"))) :=
  ⟨by decide,
    c3_rejoin_keeps_state_but_renotifies
      ⟨[("general", [1])], [(1, ⟨10, "alice", ["general"]⟩)], ⟨[], 1⟩, []⟩
      1 "general" "t" ⟨"public", [], []⟩ ⟨10, "alice", ["general"]⟩
      (by decide) (by decide) (by decide) (by decide)⟩

/-- Claim C10: sendEvent checks socket readiness on every outbound frame:
the frame is written exactly when readyState is OPEN, and sending to a
closing or closed socket is a silent no-op rather than an error, for
every frame and hence for every broadcast loop that calls sendEvent. -/
theorem c10_sendEvent_readyState :
    ∀ (rs : ReadyState) (f : Frame),
      (sendEvent rs f = some f ↔ rs = ReadyState.OPEN) ∧
      (sendEvent rs f = none ↔ rs ≠ ReadyState.OPEN) := by
  intro rs f
  by_cases h : rs = ReadyState.OPEN <;> simp [sendEvent, h]

/-- Claim C5: a SEND_MESSAGE whose target room is not in the joined-room
set of the sending socket returns the engine state unchanged and produces
no effect at all: no response frame to the sender, no broadcast, no
persistence attempt. -/
theorem c5_send_unjoined_silently_dropped (st : EngineState) (ws : Nat)
    (roomId text createdAt : String) (persistOk : Bool) (meta : SocketMeta)
    (hmeta : mget ws st.socketMeta = some meta)
    (hnot : roomId ∉ meta.rooms) :
    sendMessage st ws roomId text persistOk createdAt = (st, []) := by
  unfold sendMessage
  rw [hmeta]
  simp [hnot]

theorem c5_witness :
    mget 1 [(1, (⟨10, "alice", []⟩ : SocketMeta))] = some ⟨10, "alice", []⟩ ∧
    "general" ∉ (⟨10, "alice", []⟩ : SocketMeta).rooms ∧
    sendMessage ⟨[], [(1, ⟨10, "alice", []⟩)], ⟨[], 1⟩, []⟩
        1 "general" "hi" true "t" =
      (⟨[], [(1, ⟨10, "alice", []⟩)], ⟨[], 1⟩, []⟩, []) :=
  ⟨by decide, by decide,
    c5_send_unjoined_silently_dropped _ 1 "general" "hi" "t" true
      ⟨10, "alice", []⟩ (by decide) (by decide)⟩

/-- Claim C2 is a code bug: the SEND_MESSAGE handler awaits persistMessage
before the broadcast loop, so a rejected persistence call aborts the
handler and no subscriber receives the ROOM_MESSAGE frame; the same state
with a resolving persistence call broadcasts to both subscribers. -/
theorem c2_persist_failure_blocks_broadcast :
    (sendMessage
      ⟨[("general", [1, 2])],
        [(1, ⟨10, "alice", ["general"]⟩), (2, ⟨20, "bob", ["general"]⟩)],
        ⟨[], 1⟩, []⟩ 1 "general" "hi" false "t").2 =
      [Effect.touchRoom "general",
        Effect.persistAttempt "general" 10 "alice" "ROOM_MESSAGE" "hi"] ∧
    (sendMessage
      ⟨[("general", [1, 2])],
        [(1, ⟨10, "alice", ["general"]⟩), (2, ⟨20, "bob", ["general"]⟩)],
        ⟨[], 1⟩, []⟩ 1 "general" "hi" true "t").2 =
      [Effect.touchRoom "general",
        Effect.persistAttempt "general" 10 "alice" "ROOM_MESSAGE" "hi",
        Effect.sendAttempt 1 (Frame.roomMessage "general" "hi" "alice" "t"),
        Effect.sendAttempt 2 (Frame.roomMessage "general" "hi" "alice" "t")] := by
  constructor <;> rfl

/-- Claim C4: a JOIN_ROOM succeeds (the requester is sent an ACK) exactly
when the room record exists and the requester may access it (public type,
or a member absent from the ban list); on failure the requester receives
only an ERR_ACK and the state is unchanged, so there is no broadcast, no
persistence attempt and no change to any subscriber set. -/
theorem c4_join_success_iff_access (st : EngineState) (ws : Nat)
    (roomId createdAt : String) (roomRecord : Option RoomRecord)
    (persistOk : Bool) (meta : SocketMeta)
    (hmeta : mget ws st.socketMeta = some meta) :
    ((∃ t, Effect.sendAttempt ws (Frame.ack t) ∈
        (joinRoom st ws roomId roomRecord persistOk createdAt).2) ↔
      (∃ rec, roomRecord = some rec ∧
        (rec.type = "public" ∨
          (meta.userId ∈ rec.members ∧ meta.userId ∉ rec.bannedMembers)))) ∧
    (¬ (∃ rec, roomRecord = some rec ∧
        (rec.type = "public" ∨
          (meta.userId ∈ rec.members ∧ meta.userId ∉ rec.bannedMembers))) →
      (joinRoom st ws roomId roomRecord persistOk createdAt).1 = st ∧
        ∃ t, (joinRoom st ws roomId roomRecord persistOk createdAt).2 =
          [Effect.sendAttempt ws (Frame.errAck t)]) := by
  cases roomRecord with
  | none =>
      unfold joinRoom
      rw [hmeta]
      constructor
      · simp
      · intro _
        exact ⟨rfl, "Room does not exist", rfl⟩
  | some rec =>
      by_cases hc : canJoinRoom (some rec) meta.userId = true
      · have hcond := (canJoinRoom_iff rec meta.userId).mp hc
        constructor
        · simp only [joinRoom, hmeta]
          rw [if_neg (by simp [hc])]
          constructor
          · intro _
            exact ⟨rec, rfl, hcond⟩
          · intro _
            refine ⟨"Joined room " ++ roomId, ?_⟩
            cases persistOk <;> simp
        · intro hno
          exact absurd ⟨rec, rfl, hcond⟩ hno
      · have hcond : ¬ (rec.type = "public" ∨
            (meta.userId ∈ rec.members ∧ meta.userId ∉ rec.bannedMembers)) :=
          fun hh => hc ((canJoinRoom_iff rec meta.userId).mpr hh)
        have hres : joinRoom st ws roomId (some rec) persistOk createdAt =
            (st, [Effect.sendAttempt ws (Frame.errAck "Access denied")]) := by
          simp only [joinRoom, hmeta]
          rw [if_pos (by simp [hc])]
        rw [hres]
        constructor
        · simp only [List.mem_singleton]
          constructor
          · rintro ⟨t, ht⟩
            exact absurd (Effect.sendAttempt.injEq .. ▸ congrArg id ht) (by simp)
          · rintro ⟨rec2, hrec2, hcond2⟩
            exact absurd ((Option.some.inj hrec2) ▸ hcond2) hcond
        · intro _
          exact ⟨rfl, "Access denied", rfl⟩

theorem c4_witness :
    mget 1 [(1, (⟨10, "alice", []⟩ : SocketMeta))] = some ⟨10, "alice", []⟩ ∧
    (((∃ t, Effect.sendAttempt 1 (Frame.ack t) ∈
        (joinRoom ⟨[], [(1, ⟨10, "alice", []⟩)], ⟨[], 1⟩, []⟩ 1 "general"
          (some ⟨"public", [], []⟩) true "t").2) ↔
      (∃ rec, (some (⟨"public", [], []⟩ : RoomRecord)) = some rec ∧
        (rec.type = "public" ∨ (10 ∈ rec.members ∧ 10 ∉ rec.bannedMembers)))) ∧
    (¬ (∃ rec, (some (⟨"public", [], []⟩ : RoomRecord)) = some rec ∧
        (rec.type = "public" ∨ (10 ∈ rec.members ∧ 10 ∉ rec.bannedMembers))) →
      (joinRoom ⟨[], [(1, ⟨10, "alice", []⟩)], ⟨[], 1⟩, []⟩ 1 "general"
          (some ⟨"public", [], []⟩) true "t").1 =
        ⟨[], [(1, ⟨10, "alice", []⟩)], ⟨[], 1⟩, []⟩ ∧
        ∃ t, (joinRoom ⟨[], [(1, ⟨10, "alice", []⟩)], ⟨[], 1⟩, []⟩ 1 "general"
          (some ⟨"public", [], []⟩) true "t").2 =
          [Effect.sendAttempt 1 (Frame.errAck t)])) :=
  ⟨rfl, c4_join_success_iff_access
    ⟨[], [(1, ⟨10, "alice", []⟩)], ⟨[], 1⟩, []⟩ 1 "general" "t"
    (some ⟨"public", [], []⟩) true ⟨10, "alice", []⟩ rfl⟩

theorem wf_of_eq (st st2 : EngineState) (hr : st2.rooms = st.rooms)
    (hm : st2.socketMeta = st.socketMeta) (h : WF st) : WF st2 := by
  unfold WF at h ⊢
  rw [hr, hm]
  exact h

theorem sendMessage_fst (st : EngineState) (ws : Nat)
    (roomId text createdAt : String) (persistOk : Bool) :
    (sendMessage st ws roomId text persistOk createdAt).1 = st := by
  unfold sendMessage
  cases h : mget ws st.socketMeta with
  | none => rfl
  | some meta =>
      by_cases hj : roomId ∈ meta.rooms
      · cases hr : mget roomId st.rooms with
        | none => simp [hj, hr]
        | some room => cases persistOk <;> simp [hj, hr]
      · simp [hj]

theorem typingHandler_same_maps (st : EngineState) (ws : Nat)
    (roomId : String) (isTyping : Bool) :
    (typingHandler st ws roomId isTyping).1.rooms = st.rooms ∧
    (typingHandler st ws roomId isTyping).1.socketMeta = st.socketMeta := by
  unfold typingHandler
  cases h : mget ws st.socketMeta with
  | none => exact ⟨rfl, rfl⟩
  | some meta =>
      by_cases hj : roomId ∈ meta.rooms
      · cases hr : mget roomId st.rooms with
        | none => simp [hj, hr]
        | some room => cases isTyping <;> simp [hj, hr]
      · simp [hj]

theorem readReceiptHandler_same_maps (st : EngineState) (ws : Nat)
    (roomId : String) (now : Nat) :
    (readReceiptHandler st ws roomId now).1.rooms = st.rooms ∧
    (readReceiptHandler st ws roomId now).1.socketMeta = st.socketMeta := by
  unfold readReceiptHandler
  cases h : mget ws st.socketMeta with
  | none => exact ⟨rfl, rfl⟩
  | some meta =>
      by_cases hj : roomId ∈ meta.rooms
      · cases hr : mget roomId st.rooms with
        | none => simp [hj, hr]
        | some room => simp [hj, hr]
      · simp [hj]

theorem wf2_connect (rooms : List (String × List Nat))
    (metaMap : List (Nat × SocketMeta)) (ws userId : Nat) (username : String)
    (hWF : WF2 rooms metaMap)
    (hnosub : ∀ r, ws ∉ rsub rooms r) :
    WF2 rooms (mset ws ⟨userId, username, []⟩ metaMap) := by
  apply wf2_intro
  · exact hWF.1
  · exact nodup_keys_mset _ _ _ hWF.2.1
  · intro r s hs
    exact wf2_subs_nodup hWF r s hs
  · intro c m hm
    by_cases hc : c = ws
    · rw [hc, mget_mset_self] at hm
      rw [← Option.some.inj hm]
      simp
    · rw [mget_mset_ne _ _ _ _ hc] at hm
      exact wf2_meta_rooms_nodup hWF c m hm
  · intro c r
    by_cases hc : c = ws
    · constructor
      · intro hmem
        rw [hc] at hmem
        exact absurd hmem (hnosub r)
      · intro him
        obtain ⟨m, hm, hr⟩ := (inMeta_true_iff _ c r).mp him
        rw [hc, mget_mset_self] at hm
        rw [← Option.some.inj hm] at hr
        simp at hr
    · have heq : inMeta (mset ws ⟨userId, username, []⟩ metaMap) c r =
          inMeta metaMap c r := by
        unfold inMeta
        rw [mget_mset_ne _ _ _ _ hc]
      rw [heq]
      exact wf2_bidir hWF c r

theorem wf2_join (rooms : List (String × List Nat))
    (metaMap : List (Nat × SocketMeta)) (ws : Nat) (roomId : String)
    (meta : SocketMeta)
    (hWF : WF2 rooms metaMap) (hmeta : mget ws metaMap = some meta) :
    WF2 (mset roomId (sadd ws (rsub rooms roomId)) rooms)
      (mset ws { meta with rooms := sadd roomId meta.rooms } metaMap) := by
  have hmnd : meta.rooms.Nodup := wf2_meta_rooms_nodup hWF ws meta hmeta
  have hsubs2 : ∀ r2, rsub (mset roomId (sadd ws (rsub rooms roomId)) rooms) r2 =
      (if r2 = roomId then sadd ws (rsub rooms roomId) else rsub rooms r2) := by
    intro r2
    by_cases hr2 : r2 = roomId
    · rw [if_pos hr2, hr2]
      unfold rsub
      rw [mget_mset_self]
      rfl
    · rw [if_neg hr2]
      unfold rsub
      rw [mget_mset_ne _ _ _ _ hr2]
  have hmeta3 : ∀ c2 r2,
      inMeta (mset ws { meta with rooms := sadd roomId meta.rooms } metaMap)
          c2 r2 = true ↔
        (if c2 = ws then (r2 = roomId ∨ r2 ∈ meta.rooms)
          else inMeta metaMap c2 r2 = true) := by
    intro c2 r2
    by_cases hc2 : c2 = ws
    · rw [if_pos hc2, hc2]
      rw [inMeta_eq_of_mget _ ws r2 _ (mget_mset_self _ _ _)]
      exact mem_sadd roomId r2 meta.rooms
    · rw [if_neg hc2]
      unfold inMeta
      rw [mget_mset_ne _ _ _ _ hc2]
  apply wf2_intro
  · exact nodup_keys_mset _ _ _ hWF.1
  · exact nodup_keys_mset _ _ _ hWF.2.1
  · intro r s hs
    by_cases hr : r = roomId
    · rw [hr, mget_mset_self] at hs
      rw [← Option.some.inj hs]
      exact nodup_sadd ws _ (rsub_nodup hWF roomId)
    · rw [mget_mset_ne _ _ _ _ hr] at hs
      exact wf2_subs_nodup hWF r s hs
  · intro c m hm
    by_cases hcws : c = ws
    · rw [hcws, mget_mset_self] at hm
      rw [← Option.some.inj hm]
      exact nodup_sadd roomId _ hmnd
    · rw [mget_mset_ne _ _ _ _ hcws] at hm
      exact wf2_meta_rooms_nodup hWF c m hm
  · intro c r
    rw [hsubs2 r, hmeta3 c r]
    by_cases hcws : c = ws
    · by_cases hr : r = roomId
      · rw [if_pos hr, if_pos hcws, hcws]
        constructor
        · intro _
          exact Or.inl hr
        · intro _
          exact (mem_sadd ws ws _).mpr (Or.inl rfl)
      · rw [if_neg hr, if_pos hcws, hcws]
        constructor
        · intro h
          right
          exact (inMeta_eq_of_mget metaMap ws r meta hmeta).mp
            ((wf2_bidir hWF ws r).mp h)
        · rintro (h | h)
          · exact absurd h hr
          · exact (wf2_bidir hWF ws r).mpr
              ((inMeta_eq_of_mget metaMap ws r meta hmeta).mpr h)
    · by_cases hr : r = roomId
      · rw [if_pos hr, if_neg hcws, hr]
        constructor
        · intro h
          rcases (mem_sadd ws c _).mp h with h2 | h2
          · exact absurd h2 hcws
          · exact (wf2_bidir hWF c roomId).mp h2
        · intro h
          exact (mem_sadd ws c _).mpr
            (Or.inr ((wf2_bidir hWF c roomId).mpr h))
      · rw [if_neg hr, if_neg hcws]
        exact wf2_bidir hWF c r

theorem wf_join (st : EngineState) (ws : Nat) (roomId createdAt : String)
    (roomRecord : Option RoomRecord) (persistOk : Bool) (hWF : WF st) :
    WF (joinRoom st ws roomId roomRecord persistOk createdAt).1 := by
  cases hmeta : mget ws st.socketMeta with
  | none =>
      simp only [joinRoom, hmeta]
      exact hWF
  | some meta =>
      cases roomRecord with
      | none =>
          simp only [joinRoom, hmeta]
          exact hWF
      | some rec =>
          by_cases hc : canJoinRoom (some rec) meta.userId = true
          · rw [joinRoom_success_eq st ws roomId createdAt rec persistOk meta
              hmeta hc]
            exact wf2_join st.rooms st.socketMeta ws roomId meta hWF hmeta
          · simp only [joinRoom, hmeta]
            rw [if_pos (by simp [hc])]
            exact hWF

theorem wf2_moderation (rooms : List (String × List Nat))
    (metaMap : List (Nat × SocketMeta)) (roomId : String) (userId : Nat)
    (room : List Nat)
    (hWF : WF2 rooms metaMap) (hroom : mget roomId rooms = some room) :
    WF2
      (if (room.filter (fun c => ¬ modHits metaMap userId c)).length = 0 then
        mdel roomId rooms
        else mset roomId (room.filter (fun c => ¬ modHits metaMap userId c)) rooms)
      (metaMap.map (fun p =>
        (p.1, if room.contains p.1 && modHits metaMap userId p.1 then
          { p.2 with rooms := p.2.rooms.erase roomId } else p.2))) := by
  have hroomsub : rsub rooms roomId = room := by
    unfold rsub
    rw [hroom]
    rfl
  have roomND : room.Nodup := wf2_subs_nodup hWF roomId room hroom
  have hmm : ∀ c, mget c (metaMap.map (fun p =>
      (p.1, if room.contains p.1 && modHits metaMap userId p.1 then
        { p.2 with rooms := p.2.rooms.erase roomId } else p.2))) =
      (mget c metaMap).map (fun m =>
        if room.contains c && modHits metaMap userId c then
          { m with rooms := m.rooms.erase roomId } else m) := by
    intro c
    exact mget_map_entries c metaMap (fun c2 m =>
      if room.contains c2 && modHits metaMap userId c2 then
        { m with rooms := m.rooms.erase roomId } else m)
  have hsubsNew : ∀ r, rsub
      (if (room.filter (fun c => ¬ modHits metaMap userId c)).length = 0 then
        mdel roomId rooms
        else mset roomId (room.filter (fun c => ¬ modHits metaMap userId c)) rooms) r =
      (if r = roomId then room.filter (fun c => ¬ modHits metaMap userId c)
        else rsub rooms r) := by
    intro r
    by_cases hgc : (room.filter (fun c => ¬ modHits metaMap userId c)).length = 0
    · rw [if_pos hgc]
      by_cases hr : r = roomId
      · rw [if_pos hr, hr]
        unfold rsub
        rw [mget_mdel_self roomId rooms hWF.1]
        rw [List.length_eq_zero] at hgc
        rw [hgc]
        rfl
      · rw [if_neg hr]
        unfold rsub
        rw [mget_mdel_ne _ _ _ hr]
    · rw [if_neg hgc]
      by_cases hr : r = roomId
      · rw [if_pos hr, hr]
        unfold rsub
        rw [mget_mset_self]
        rfl
      · rw [if_neg hr]
        unfold rsub
        rw [mget_mset_ne _ _ _ _ hr]
  apply wf2_intro
  · by_cases hgc : (room.filter (fun c => ¬ modHits metaMap userId c)).length = 0
    · rw [if_pos hgc]
      exact nodup_keys_mdel _ _ hWF.1
    · rw [if_neg hgc]
      exact nodup_keys_mset _ _ _ hWF.1
  · have hk2 : (List.map (fun p =>
        (p.1, if room.contains p.1 && modHits metaMap userId p.1 then
          { p.2 with rooms := p.2.rooms.erase roomId } else p.2)) metaMap).map
          Prod.fst = metaMap.map Prod.fst :=
      keys_map_entries metaMap (fun c2 m =>
        if room.contains c2 && modHits metaMap userId c2 then
          { m with rooms := m.rooms.erase roomId } else m)
    rw [hk2]
    exact hWF.2.1
  · intro r s hs
    by_cases hgc : (room.filter (fun c => ¬ modHits metaMap userId c)).length = 0
    · rw [if_pos hgc] at hs
      by_cases hr : r = roomId
      · rw [hr, mget_mdel_self roomId rooms hWF.1] at hs
        exact absurd hs (by simp)
      · rw [mget_mdel_ne _ _ _ hr] at hs
        exact wf2_subs_nodup hWF r s hs
    · rw [if_neg hgc] at hs
      by_cases hr : r = roomId
      · rw [hr, mget_mset_self] at hs
        rw [← Option.some.inj hs]
        exact roomND.filter _
      · rw [mget_mset_ne _ _ _ _ hr] at hs
        exact wf2_subs_nodup hWF r s hs
  · intro c m2 hm2
    rw [hmm c] at hm2
    cases hcm : mget c metaMap with
    | none =>
        rw [hcm] at hm2
        exact absurd hm2 (by simp)
    | some m =>
        rw [hcm] at hm2
        have hmnd : m.rooms.Nodup := wf2_meta_rooms_nodup hWF c m hcm
        by_cases hcond : (room.contains c && modHits metaMap userId c) = true
        · simp only [Option.map_some, hcond, if_true] at hm2
          rw [← Option.some.inj hm2]
          exact hmnd.erase roomId
        · simp only [Option.map_some, hcond, if_false] at hm2
          rw [← Option.some.inj hm2]
          exact hmnd
  · intro c r
    rw [hsubsNew r]
    have hbid := wf2_bidir hWF c
    cases hcm : mget c metaMap with
    | none =>
        have hnone : ∀ r2, ¬ (c ∈ rsub rooms r2) := by
          intro r2 hc2
          have := (hbid r2).mp hc2
          unfold inMeta at this
          rw [hcm] at this
          exact absurd this (by simp)
        have hinew : inMeta (metaMap.map (fun p =>
            (p.1, if room.contains p.1 && modHits metaMap userId p.1 then
              { p.2 with rooms := p.2.rooms.erase roomId } else p.2))) c r = false := by
          unfold inMeta
          rw [hmm c, hcm]
          rfl
        rw [hinew]
        by_cases hr : r = roomId
        · rw [if_pos hr]
          constructor
          · intro hc2
            have := List.mem_of_mem_filter hc2
            rw [← hroomsub] at this
            exact absurd this (hnone roomId)
          · intro hfalse
            exact absurd hfalse (by simp)
        · rw [if_neg hr]
          constructor
          · intro hc2
            exact absurd hc2 (hnone r)
          · intro hfalse
            exact absurd hfalse (by simp)
    | some m =>
        have hmnd : m.rooms.Nodup := wf2_meta_rooms_nodup hWF c m hcm
        have hnew : inMeta (metaMap.map (fun p =>
            (p.1, if room.contains p.1 && modHits metaMap userId p.1 then
              { p.2 with rooms := p.2.rooms.erase roomId } else p.2))) c r = true ↔
            r ∈ (if room.contains c && modHits metaMap userId c then
              { m with rooms := m.rooms.erase roomId } else m).rooms := by
          apply inMeta_eq_of_mget
          rw [hmm c, hcm]
          rfl
        rw [hnew]
        have hold : c ∈ rsub rooms r ↔ r ∈ m.rooms := by
          rw [hbid r]
          exact inMeta_eq_of_mget metaMap c r m hcm
        by_cases hcond : (room.contains c && modHits metaMap userId c) = true
        · rw [if_pos hcond]
          have hhit : modHits metaMap userId c = true := by
            simp at hcond
            exact hcond.2
          by_cases hr : r = roomId
          · rw [if_pos hr]
            constructor
            · intro hc2
              have := (List.mem_filter.mp hc2).2
              simp [hhit] at this
            · intro hc2
              rw [hr] at hc2
              rw [hmnd.mem_erase_iff] at hc2
              exact absurd rfl hc2.1
          · rw [if_neg hr]
            constructor
            · intro hc2
              rw [List.mem_erase_of_ne hr]
              exact hold.mp hc2
            · intro hc2
              rw [List.mem_erase_of_ne hr] at hc2
              exact hold.mpr hc2
        · rw [if_neg hcond]
          by_cases hr : r = roomId
          · rw [if_pos hr]
            have hsubr : rsub rooms r = room := by
              rw [hr]
              exact hroomsub
            rw [← hold, hsubr]
            constructor
            · intro hc2
              exact List.mem_of_mem_filter hc2
            · intro hc2
              rw [List.mem_filter]
              refine ⟨hc2, ?_⟩
              have hcontains : room.contains c = true := by
                simpa using hc2
              have hmf : modHits metaMap userId c = false := by
                cases hmh : modHits metaMap userId c with
                | false => rfl
                | true => exact absurd (by rw [hcontains, hmh]; rfl) hcond
              simp [hmf]
          · rw [if_neg hr]
            exact hold

theorem wf_moderation (st : EngineState) (roomId : String) (userId : Nat)
    (hWF : WF st) : WF (removeUserFromRoom st roomId userId) := by
  cases hroom : mget roomId st.rooms with
  | none =>
      simp only [removeUserFromRoom, hroom]
      exact hWF
  | some room =>
      simp only [removeUserFromRoom, hroom]
      exact wf2_moderation st.rooms st.socketMeta roomId userId room hWF hroom

theorem flatMap_congr {α β : Type} (l : List α) (f g : α → List β)
    (h : ∀ x ∈ l, f x = g x) : l.flatMap f = l.flatMap g := by
  induction l with
  | nil => rfl
  | cons a rest ih =>
      simp only [List.flatMap_cons]
      rw [h a (List.mem_cons_self a rest),
        ih (fun x hx => h x (List.mem_cons_of_mem a hx))]

theorem stop_keys_nodup (s : TypingState) (r k : String)
    (h : (s.typingTimers.map Prod.fst).Nodup) :
    ((stopTypingForUser s r k).typingTimers.map Prod.fst).Nodup := by
  cases hget : mget r s.typingTimers with
  | none =>
      simp only [stopTypingForUser, hget]
      exact h
  | some inner =>
      simp only [stopTypingForUser, hget]
      by_cases hgc : (if (mget k inner).isSome then mdel k inner else inner).length = 0
      · rw [if_pos hgc]
        exact nodup_keys_mdel _ _ h
      · rw [if_neg hgc]
        exact nodup_keys_mset _ _ _ h

theorem stop_inner_nodup (s : TypingState) (r k : String)
    (htk : (s.typingTimers.map Prod.fst).Nodup)
    (h : ∀ r2 i, mget r2 s.typingTimers = some i → (i.map Prod.fst).Nodup) :
    ∀ r2 i, mget r2 (stopTypingForUser s r k).typingTimers = some i →
      (i.map Prod.fst).Nodup := by
  intro r2 i hi
  cases hget : mget r s.typingTimers with
  | none =>
      simp only [stopTypingForUser, hget] at hi
      exact h r2 i hi
  | some inner =>
      simp only [stopTypingForUser, hget] at hi
      by_cases hgc : (if (mget k inner).isSome then mdel k inner else inner).length = 0
      · rw [if_pos hgc] at hi
        by_cases hr2 : r2 = r
        · rw [hr2, mget_mdel_self _ _ htk] at hi
          exact absurd hi (by simp)
        · rw [mget_mdel_ne _ _ _ hr2] at hi
          exact h r2 i hi
      · rw [if_neg hgc] at hi
        by_cases hr2 : r2 = r
        · rw [hr2, mget_mset_self] at hi
          rw [← Option.some.inj hi]
          by_cases hk : (mget k inner).isSome
          · rw [if_pos hk]
            exact nodup_keys_mdel _ _ (h r inner hget)
          · rw [if_neg hk]
            exact h r inner hget
        · rw [mget_mset_ne _ _ _ _ hr2] at hi
          exact h r2 i hi

theorem mget_stop_other (s : TypingState) (r k r2 : String) (hne : r2 ≠ r) :
    mget r2 (stopTypingForUser s r k).typingTimers = mget r2 s.typingTimers := by
  cases hget : mget r s.typingTimers with
  | none =>
      simp only [stopTypingForUser, hget]
  | some inner =>
      simp only [stopTypingForUser, hget]
      by_cases hgc : (if (mget k inner).isSome then mdel k inner else inner).length = 0
      · rw [if_pos hgc]
        exact mget_mdel_ne _ _ _ hne
      · rw [if_neg hgc]
        exact mget_mset_ne _ _ _ _ hne

theorem timerFor_stop_other (s : TypingState) (r k r2 k2 : String)
    (hne : r2 ≠ r) :
    timerFor (stopTypingForUser s r k) r2 k2 = timerFor s r2 k2 := by
  unfold timerFor getRoomTypingMap
  rw [mget_stop_other s r k r2 hne]

theorem timerFor_stop_self (s : TypingState) (r k : String)
    (htk : (s.typingTimers.map Prod.fst).Nodup)
    (hti : ∀ r2 i, mget r2 s.typingTimers = some i → (i.map Prod.fst).Nodup) :
    timerFor (stopTypingForUser s r k) r k = none := by
  unfold timerFor getRoomTypingMap
  cases hget : mget r s.typingTimers with
  | none =>
      simp only [stopTypingForUser, hget]
      rfl
  | some inner =>
      simp only [stopTypingForUser, hget]
      by_cases hgc : (if (mget k inner).isSome then mdel k inner else inner).length = 0
      · rw [if_pos hgc, mget_mdel_self _ _ htk]
        rfl
      · rw [if_neg hgc, mget_mset_self]
        by_cases hk : (mget k inner).isSome
        · rw [if_pos hk] at hgc ⊢
          simp only [Option.getD_some]
          exact mget_mdel_self _ _ (hti r inner hget)
        · rw [if_neg hk] at hgc ⊢
          simp only [Option.getD_some]
          cases hkk : mget k inner with
          | none => rfl
          | some t => exact absurd (by rw [hkk]; rfl) hk

theorem closeRooms_spec (ws userId : Nat) (username createdAt : String) :
    ∀ (l : List String) (st : EngineState),
      l.Nodup →
      (st.rooms.map Prod.fst).Nodup →
      (∀ r s, mget r st.rooms = some s → s.Nodup) →
      (st.typing.typingTimers.map Prod.fst).Nodup →
      (∀ r i, mget r st.typing.typingTimers = some i → (i.map Prod.fst).Nodup) →
      (∀ r, ws ∈ rsub st.rooms r ↔ r ∈ l) →
      (closeRooms ws userId username true createdAt st l).2.2 = true ∧
      (closeRooms ws userId username true createdAt st l).1.socketMeta =
        st.socketMeta ∧
      (∀ r, mget r (closeRooms ws userId username true createdAt st l).1.rooms =
        if r ∈ l then
          (if ((rsub st.rooms r).erase ws).length = 0 then none
            else some ((rsub st.rooms r).erase ws))
        else mget r st.rooms) ∧
      ((closeRooms ws userId username true createdAt st l).1.rooms.map
        Prod.fst).Nodup ∧
      (∀ r s, mget r
          (closeRooms ws userId username true createdAt st l).1.rooms = some s →
        s.Nodup) ∧
      (∀ r ∈ l, timerFor
        (closeRooms ws userId username true createdAt st l).1.typing r
          (toString userId) = none) ∧
      (∀ r k2, r ∉ l → timerFor
          (closeRooms ws userId username true createdAt st l).1.typing r k2 =
        timerFor st.typing r k2) ∧
      (closeRooms ws userId username true createdAt st l).2.1 =
        l.flatMap (fun r =>
          ((rsub st.rooms r).map (fun c =>
            Effect.sendAttempt c (Frame.typing r username false)) ++
          [Effect.persistAttempt r userId username "SYSTEM"
            (username ++ " left " ++ r)]) ++
          (rsub st.rooms r).map (fun c =>
            Effect.sendAttempt c (Frame.system r (username ++ " left " ++ r)
              createdAt))) := by
  intro l
  induction l with
  | nil =>
      intro st hnd hkeys hsubsND htk hti hmem
      refine ⟨rfl, rfl, ?_, hkeys, hsubsND, ?_, ?_, rfl⟩
      · intro r
        simp [closeRooms]
      · intro r hr
        simp at hr
      · intro r k2 _
        rfl
  | cons roomId rest ih =>
      intro st hnd hkeys hsubsND htk hti hmem
      rw [List.nodup_cons] at hnd
      have hws : ws ∈ rsub st.rooms roomId :=
        (hmem roomId).mpr (List.mem_cons_self _ _)
      obtain ⟨room, hroom, hwsr⟩ := (mem_rsub_iff st.rooms ws roomId).mp hws
      have roomND : room.Nodup := hsubsND roomId room hroom
      have hrsubroom : rsub st.rooms roomId = room := by
        unfold rsub
        rw [hroom]
        rfl
      have hstep : closeRooms ws userId username true createdAt st
          (roomId :: rest) =
          ((closeRooms ws userId username true createdAt
            { st with
              typing := stopTypingForUser st.typing roomId (toString userId),
              rooms :=
                if (room.erase ws).length = 0 then mdel roomId st.rooms
                else mset roomId (room.erase ws) st.rooms } rest).1,
            ((room.map (fun c =>
              Effect.sendAttempt c (Frame.typing roomId username false)) ++
              [Effect.persistAttempt roomId userId username "SYSTEM"
                (username ++ " left " ++ roomId)]) ++
              room.map (fun c =>
                Effect.sendAttempt c (Frame.system roomId
                  (username ++ " left " ++ roomId) createdAt))) ++
              (closeRooms ws userId username true createdAt
                { st with
                  typing := stopTypingForUser st.typing roomId (toString userId),
                  rooms :=
                    if (room.erase ws).length = 0 then mdel roomId st.rooms
                    else mset roomId (room.erase ws) st.rooms } rest).2.1,
            (closeRooms ws userId username true createdAt
              { st with
                typing := stopTypingForUser st.typing roomId (toString userId),
                rooms :=
                  if (room.erase ws).length = 0 then mdel roomId st.rooms
                  else mset roomId (room.erase ws) st.rooms } rest).2.2) := by
        simp only [closeRooms, hroom]
        rfl
      set st2 : EngineState := { st with
        typing := stopTypingForUser st.typing roomId (toString userId),
        rooms :=
          if (room.erase ws).length = 0 then mdel roomId st.rooms
          else mset roomId (room.erase ws) st.rooms } with hst2
      have hmg2 : ∀ r, r ≠ roomId → mget r st2.rooms = mget r st.rooms := by
        intro r hr
        rw [hst2]
        by_cases hgc : (room.erase ws).length = 0
        · simp only [if_pos hgc]
          exact mget_mdel_ne _ _ _ hr
        · simp only [if_neg hgc]
          exact mget_mset_ne _ _ _ _ hr
      have hmgroom : mget roomId st2.rooms =
          if (room.erase ws).length = 0 then none
          else some (room.erase ws) := by
        rw [hst2]
        by_cases hgc : (room.erase ws).length = 0
        · simp only [if_pos hgc]
          exact mget_mdel_self _ _ hkeys
        · simp only [if_neg hgc]
          exact mget_mset_self _ _ _
      have hkeys2 : (st2.rooms.map Prod.fst).Nodup := by
        rw [hst2]
        by_cases hgc : (room.erase ws).length = 0
        · simp only [if_pos hgc]
          exact nodup_keys_mdel _ _ hkeys
        · simp only [if_neg hgc]
          exact nodup_keys_mset _ _ _ hkeys
      have hsubsND2 : ∀ r s, mget r st2.rooms = some s → s.Nodup := by
        intro r s hs
        by_cases hr : r = roomId
        · rw [hr, hmgroom] at hs
          by_cases hgc : (room.erase ws).length = 0
          · rw [if_pos hgc] at hs
            exact absurd hs (by simp)
          · rw [if_neg hgc] at hs
            rw [← Option.some.inj hs]
            exact roomND.erase ws
        · rw [hmg2 r hr] at hs
          exact hsubsND r s hs
      have htyp2 : st2.typing = stopTypingForUser st.typing roomId
          (toString userId) := by
        rw [hst2]
      have htk2 : (st2.typing.typingTimers.map Prod.fst).Nodup := by
        rw [htyp2]
        exact stop_keys_nodup _ _ _ htk
      have hti2 : ∀ r i, mget r st2.typing.typingTimers = some i →
          (i.map Prod.fst).Nodup := by
        rw [htyp2]
        exact stop_inner_nodup _ _ _ htk hti
      have hmem2 : ∀ r, ws ∈ rsub st2.rooms r ↔ r ∈ rest := by
        intro r
        by_cases hr : r = roomId
        · rw [hr]
          unfold rsub
          rw [hmgroom]
          constructor
          · intro hmm2
            by_cases hgc : (room.erase ws).length = 0
            · rw [if_pos hgc] at hmm2
              exact absurd hmm2 (by simp)
            · rw [if_neg hgc] at hmm2
              simp only [Option.getD_some] at hmm2
              rw [roomND.mem_erase_iff] at hmm2
              exact absurd rfl hmm2.1
          · intro hmm2
            exact absurd hmm2 hnd.1
        · unfold rsub
          rw [hmg2 r hr]
          have := hmem r
          unfold rsub at this
          rw [this]
          simp only [List.mem_cons]
          constructor
          · rintro (h | h)
            · exact absurd h hr
            · exact h
          · exact Or.inr
      obtain ⟨ihdone, ihmeta, ihrooms, ihkeys, ihsubs, ihtimin, ihtimout, iheffs⟩ :=
        ih st2 hnd.2 hkeys2 hsubsND2 htk2 hti2 hmem2
      rw [hstep]
      refine ⟨ihdone, ?_, ?_, ihkeys, ihsubs, ?_, ?_, ?_⟩
      · rw [ihmeta, hst2]
      · intro r
        rw [ihrooms r]
        by_cases hmr : r ∈ rest
        · have hner : r ≠ roomId := fun hh => hnd.1 (hh ▸ hmr)
          rw [if_pos hmr, if_pos (List.mem_cons_of_mem _ hmr)]
          have : rsub st2.rooms r = rsub st.rooms r := by
            unfold rsub
            rw [hmg2 r hner]
          rw [this]
        · rw [if_neg hmr]
          by_cases hr : r = roomId
          · rw [if_pos (by rw [hr]; exact List.mem_cons_self _ _)]
            rw [hr, hmgroom, hrsubroom]
          · rw [if_neg (by
              simp only [List.mem_cons]
              rintro (h | h)
              · exact hr h
              · exact hmr h)]
            exact hmg2 r hr
      · intro r hrl
        rcases List.mem_cons.mp hrl with hr | hr
        · rw [ihtimout r (toString userId) (by rw [hr]; exact hnd.1)]
          rw [htyp2, hr]
          exact timerFor_stop_self _ _ _ htk hti
        · exact ihtimin r hr
      · intro r k2 hrl
        have hner : r ≠ roomId := fun hh => hrl (by rw [hh]; exact List.mem_cons_self _ _)
        have hnrest : r ∉ rest := fun hh => hrl (List.mem_cons_of_mem _ hh)
        rw [ihtimout r k2 hnrest, htyp2]
        exact timerFor_stop_other _ _ _ _ _ hner
      · rw [iheffs, List.flatMap_cons, hrsubroom]
        have : rest.flatMap (fun r =>
            ((rsub st2.rooms r).map (fun c =>
              Effect.sendAttempt c (Frame.typing r username false)) ++
            [Effect.persistAttempt r userId username "SYSTEM"
              (username ++ " left " ++ r)]) ++
            (rsub st2.rooms r).map (fun c =>
              Effect.sendAttempt c (Frame.system r (username ++ " left " ++ r)
                createdAt))) =
            rest.flatMap (fun r =>
            ((rsub st.rooms r).map (fun c =>
              Effect.sendAttempt c (Frame.typing r username false)) ++
            [Effect.persistAttempt r userId username "SYSTEM"
              (username ++ " left " ++ r)]) ++
            (rsub st.rooms r).map (fun c =>
              Effect.sendAttempt c (Frame.system r (username ++ " left " ++ r)
                createdAt))) := by
          apply flatMap_congr
          intro r hr
          have hner : r ≠ roomId := fun hh => hnd.1 (hh ▸ hr)
          have : rsub st2.rooms r = rsub st.rooms r := by
            unfold rsub
            rw [hmg2 r hner]
          rw [this]
        rw [this]

theorem closeConn_spec (st : EngineState) (ws : Nat) (createdAt : String)
    (meta : SocketMeta) (hWF : WF st)
    (hmeta : mget ws st.socketMeta = some meta)
    (htk : (st.typing.typingTimers.map Prod.fst).Nodup)
    (hti : ∀ r i, mget r st.typing.typingTimers = some i →
      (i.map Prod.fst).Nodup) :
    (closeConn st ws true createdAt).1.socketMeta = mdel ws st.socketMeta ∧
    (∀ r, mget r (closeConn st ws true createdAt).1.rooms =
      if r ∈ meta.rooms then
        (if ((rsub st.rooms r).erase ws).length = 0 then none
          else some ((rsub st.rooms r).erase ws))
      else mget r st.rooms) ∧
    ((closeConn st ws true createdAt).1.rooms.map Prod.fst).Nodup ∧
    (∀ r s, mget r (closeConn st ws true createdAt).1.rooms = some s →
      s.Nodup) ∧
    (∀ r ∈ meta.rooms, timerFor (closeConn st ws true createdAt).1.typing r
      (toString meta.userId) = none) ∧
    (closeConn st ws true createdAt).2 =
      meta.rooms.flatMap (fun r =>
        ((rsub st.rooms r).map (fun c =>
          Effect.sendAttempt c (Frame.typing r meta.username false)) ++
        [Effect.persistAttempt r meta.userId meta.username "SYSTEM"
          (meta.username ++ " left " ++ r)]) ++
        (rsub st.rooms r).map (fun c =>
          Effect.sendAttempt c (Frame.system r (meta.username ++ " left " ++ r)
            createdAt))) := by
  have hnd : meta.rooms.Nodup := wf_meta_rooms_nodup st hWF ws meta hmeta
  have hmem : ∀ r, ws ∈ rsub st.rooms r ↔ r ∈ meta.rooms := by
    intro r
    exact (wf2_bidir hWF ws r).trans
      (inMeta_eq_of_mget st.socketMeta ws r meta hmeta)
  obtain ⟨hdone, hmeta', hrooms, hkeys, hsubs, htin, htout, heffs⟩ :=
    closeRooms_spec ws meta.userId meta.username createdAt meta.rooms st
      hnd hWF.1 (wf2_subs_nodup hWF) htk hti hmem
  have hconn : closeConn st ws true createdAt =
      ({ (closeRooms ws meta.userId meta.username true createdAt st
          meta.rooms).1 with
        socketMeta := mdel ws (closeRooms ws meta.userId meta.username true
          createdAt st meta.rooms).1.socketMeta },
        (closeRooms ws meta.userId meta.username true createdAt st
          meta.rooms).2.1) := by
    simp only [closeConn, hmeta, hdone]
    rfl
  rw [hconn]
  refine ⟨?_, ?_, ?_, ?_, ?_, ?_⟩
  · show mdel ws (closeRooms ws meta.userId meta.username true createdAt st
      meta.rooms).1.socketMeta = mdel ws st.socketMeta
    rw [hmeta']
  · exact hrooms
  · exact hkeys
  · exact hsubs
  · exact htin
  · exact heffs

theorem wf_close (st : EngineState) (ws : Nat) (createdAt : String)
    (hWF : WF st)
    (htk : (st.typing.typingTimers.map Prod.fst).Nodup)
    (hti : ∀ r i, mget r st.typing.typingTimers = some i →
      (i.map Prod.fst).Nodup) :
    WF (closeConn st ws true createdAt).1 := by
  cases hmeta : mget ws st.socketMeta with
  | none =>
      simp only [closeConn, hmeta]
      exact hWF
  | some meta =>
      obtain ⟨hmeta', hrooms, hkeys, hsubs, htin, heffs⟩ :=
        closeConn_spec st ws createdAt meta hWF hmeta htk hti
      have hmem : ∀ r, ws ∈ rsub st.rooms r ↔ r ∈ meta.rooms := by
        intro r
        exact (wf2_bidir hWF ws r).trans
          (inMeta_eq_of_mget st.socketMeta ws r meta hmeta)
      show WF2 (closeConn st ws true createdAt).1.rooms
        (closeConn st ws true createdAt).1.socketMeta
      apply wf2_intro
      · exact hkeys
      · rw [hmeta']
        exact nodup_keys_mdel _ _ hWF.2.1
      · exact hsubs
      · intro c m hm
        rw [hmeta'] at hm
        by_cases hc : c = ws
        · rw [hc, mget_mdel_self _ _ hWF.2.1] at hm
          exact absurd hm (by simp)
        · rw [mget_mdel_ne _ _ _ hc] at hm
          exact wf2_meta_rooms_nodup hWF c m hm
      · intro c r
        rw [show inMeta (closeConn st ws true createdAt).1.socketMeta c r =
          (if c = ws then false else inMeta st.socketMeta c r) from by
            unfold inMeta
            rw [hmeta']
            by_cases hc : c = ws
            · rw [if_pos hc, hc, mget_mdel_self _ _ hWF.2.1]
            · rw [if_neg hc, mget_mdel_ne _ _ _ hc]]
        unfold rsub
        rw [hrooms r]
        by_cases hc : c = ws
        · rw [if_pos hc, hc]
          by_cases hr : r ∈ meta.rooms
          · rw [if_pos hr]
            by_cases hgc : ((rsub st.rooms r).erase ws).length = 0
            · rw [if_pos hgc]
              simp
            · rw [if_neg hgc]
              simp only [Option.getD_some]
              constructor
              · intro hmm2
                rw [(rsub_nodup hWF r).mem_erase_iff] at hmm2
                exact absurd rfl hmm2.1
              · intro hfalse
                exact absurd hfalse (by simp)
          · rw [if_neg hr]
            constructor
            · intro hmm2
              exact absurd ((hmem r).mp hmm2) hr
            · intro hfalse
              exact absurd hfalse (by simp)
        · rw [if_neg hc]
          have hbid : c ∈ rsub st.rooms r ↔ inMeta st.socketMeta c r = true :=
            wf2_bidir hWF c r
          by_cases hr : r ∈ meta.rooms
          · rw [if_pos hr]
            by_cases hgc : ((rsub st.rooms r).erase ws).length = 0
            · rw [if_pos hgc]
              rw [List.length_eq_zero] at hgc
              constructor
              · intro hmm2
                exact absurd hmm2 (by simp)
              · intro him
                have hcr : c ∈ rsub st.rooms r := hbid.mpr him
                have : c ∈ (rsub st.rooms r).erase ws :=
                  (List.mem_erase_of_ne hc).mpr hcr
                rw [hgc] at this
                exact absurd this (by simp)
            · rw [if_neg hgc]
              simp only [Option.getD_some]
              rw [List.mem_erase_of_ne hc]
              exact hbid
          · rw [if_neg hr]
            exact hbid

section MapMemberLemmas

variable {α β : Type} [DecidableEq α]

theorem pair_mem_mset (k : α) (v : β) (l : List (α × β)) :
    (k, v) ∈ mset k v l := by
  induction l with
  | nil => simp [mset]
  | cons p rest ih =>
      rcases p with ⟨pk, pv⟩
      by_cases hp : pk = k
      · simp [mset, hp]
      · simp only [mset, if_neg hp]
        exact List.mem_cons_of_mem _ ih

theorem mem_mset_weak {q : α × β} {k : α} {v : β} {l : List (α × β)}
    (h : q ∈ mset k v l) : q = (k, v) ∨ q ∈ l := by
  induction l with
  | nil => simpa [mset] using h
  | cons p rest ih =>
      rcases p with ⟨pk, pv⟩
      by_cases hp : pk = k
      · simp only [mset, if_pos hp] at h
        rcases List.mem_cons.mp h with h | h
        · exact Or.inl h
        · exact Or.inr (List.mem_cons_of_mem _ h)
      · simp only [mset, if_neg hp] at h
        rcases List.mem_cons.mp h with h | h
        · exact Or.inr (by rw [h]; exact List.mem_cons_self _ _)
        · rcases ih h with h2 | h2
          · exact Or.inl h2
          · exact Or.inr (List.mem_cons_of_mem _ h2)

theorem mem_mdel_sub {q : α × β} {k : α} {l : List (α × β)}
    (h : q ∈ mdel k l) : q ∈ l := by
  induction l with
  | nil => simpa [mdel] using h
  | cons p rest ih =>
      rcases p with ⟨pk, pv⟩
      by_cases hp : pk = k
      · simp only [mdel, if_pos hp] at h
        exact List.mem_cons_of_mem _ h
      · simp only [mdel, if_neg hp] at h
        rcases List.mem_cons.mp h with h | h
        · rw [h]
          exact List.mem_cons_self _ _
        · exact List.mem_cons_of_mem _ (ih h)

theorem mem_mset_iff {q : α × β} {k : α} {v : β} {l : List (α × β)}
    (hnd : (l.map Prod.fst).Nodup) :
    q ∈ mset k v l ↔ q = (k, v) ∨ (q ∈ l ∧ q.1 ≠ k) := by
  induction l with
  | nil => simp [mset]
  | cons p rest ih =>
      rcases p with ⟨pk, pv⟩
      rw [List.map_cons, List.nodup_cons] at hnd
      by_cases hp : pk = k
      · simp only [mset, if_pos hp]
        constructor
        · intro h
          rcases List.mem_cons.mp h with h | h
          · exact Or.inl h
          · refine Or.inr ⟨List.mem_cons_of_mem _ h, ?_⟩
            intro hq
            apply hnd.1
            rw [hp, ← hq]
            exact List.mem_map.mpr ⟨q, h, rfl⟩
        · rintro (h | ⟨hm, hq⟩)
          · rw [h]
            exact List.mem_cons_self _ _
          · rcases List.mem_cons.mp hm with h2 | h2
            · exact absurd (show q.1 = k by rw [h2]; exact hp) hq
            · exact List.mem_cons_of_mem _ h2
      · simp only [mset, if_neg hp]
        constructor
        · intro h
          rcases List.mem_cons.mp h with h | h
          · refine Or.inr ⟨by rw [h]; exact List.mem_cons_self _ _, ?_⟩
            rw [h]
            exact hp
          · rcases (ih hnd.2).mp h with h2 | ⟨h2, h3⟩
            · exact Or.inl h2
            · exact Or.inr ⟨List.mem_cons_of_mem _ h2, h3⟩
        · rintro (h | ⟨hm, hq⟩)
          · rw [h]
            exact List.mem_cons_of_mem _ (pair_mem_mset k v rest)
          · rcases List.mem_cons.mp hm with h2 | h2
            · rw [h2]
              exact List.mem_cons_self _ _
            · exact List.mem_cons_of_mem _ ((ih hnd.2).mpr (Or.inr ⟨h2, hq⟩))

theorem mem_mdel_iff {q : α × β} {k : α} {l : List (α × β)}
    (hnd : (l.map Prod.fst).Nodup) :
    q ∈ mdel k l ↔ q ∈ l ∧ q.1 ≠ k := by
  induction l with
  | nil => simp [mdel]
  | cons p rest ih =>
      rcases p with ⟨pk, pv⟩
      rw [List.map_cons, List.nodup_cons] at hnd
      by_cases hp : pk = k
      · simp only [mdel, if_pos hp]
        constructor
        · intro h
          refine ⟨List.mem_cons_of_mem _ h, ?_⟩
          intro hq
          apply hnd.1
          rw [hp, ← hq]
          exact List.mem_map.mpr ⟨q, h, rfl⟩
        · rintro ⟨hm, hq⟩
          rcases List.mem_cons.mp hm with h2 | h2
          · exact absurd (show q.1 = k by rw [h2]; exact hp) hq
          · exact h2
      · simp only [mdel, if_neg hp]
        constructor
        · intro h
          rcases List.mem_cons.mp h with h2 | h2
          · refine ⟨by rw [h2]; exact List.mem_cons_self _ _, ?_⟩
            rw [h2]
            exact hp
          · obtain ⟨hm, hq⟩ := (ih hnd.2).mp h2
            exact ⟨List.mem_cons_of_mem _ hm, hq⟩
        · rintro ⟨hm, hq⟩
          rcases List.mem_cons.mp hm with h2 | h2
          · rw [h2]
            exact List.mem_cons_self _ _
          · exact List.mem_cons_of_mem _ ((ih hnd.2).mpr ⟨h2, hq⟩)

end MapMemberLemmas

theorem findTimer_none_iff (tt : List (String × List (String × Nat)))
    (id : Nat) :
    findTimer tt id = none ↔ ∀ p ∈ tt, ∀ q ∈ p.2, q.2 ≠ id := by
  induction tt with
  | nil => simp [findTimer]
  | cons p rest ih =>
      rcases p with ⟨pr, pinner⟩
      simp only [findTimer]
      cases hf : pinner.find? (fun q => q.2 == id) with
      | some q =>
          have hq := List.mem_of_find?_eq_some hf
          have hqid : q.2 = id := by simpa using List.find?_some hf
          constructor
          · intro h
            exact absurd h (by simp)
          · intro h
            exact absurd hqid (h (pr, pinner) (List.mem_cons_self _ _) q hq)
      | none =>
          rw [ih]
          constructor
          · intro h p2 hp2 q2 hq2
            rcases List.mem_cons.mp hp2 with h2 | h2
            · have : ∀ x ∈ pinner, ¬ (x.2 == id) = true :=
                fun x hx => by
                  have := List.find?_eq_none.mp hf x hx
                  simpa using this
              intro hid
              apply this q2
              · rw [h2] at hq2
                exact hq2
              · simp [hid]
            · exact h p2 h2 q2 hq2
          · intro h p2 hp2 q2 hq2
            exact h p2 (List.mem_cons_of_mem _ hp2) q2 hq2

theorem findTimer_some (tt : List (String × List (String × Nat))) (id : Nat)
    (r k : String) (h : findTimer tt id = some (r, k)) :
    ∃ inner, (r, inner) ∈ tt ∧ (k, id) ∈ inner := by
  induction tt with
  | nil => simp [findTimer] at h
  | cons p rest ih =>
      rcases p with ⟨pr, pinner⟩
      simp only [findTimer] at h
      cases hf : pinner.find? (fun q => q.2 == id) with
      | some q =>
          rw [hf] at h
          have hq := List.mem_of_find?_eq_some hf
          have hqid : q.2 = id := by simpa using List.find?_some hf
          have hpair := Option.some.inj h
          have hr : pr = r := congrArg Prod.fst hpair
          have hk : q.1 = k := congrArg Prod.snd hpair
          refine ⟨pinner, ?_, ?_⟩
          · rw [← hr]
            exact List.mem_cons_self _ _
          · rw [← hk, ← hqid]
            exact hq
      | none =>
          rw [hf] at h
          obtain ⟨inner, hi, hki⟩ := ih h
          exact ⟨inner, List.mem_cons_of_mem _ hi, hki⟩

theorem stop_nextId (s : TypingState) (r k : String) :
    (stopTypingForUser s r k).nextId = s.nextId := by
  cases hget : mget r s.typingTimers with
  | none => simp only [stopTypingForUser, hget]
  | some inner => simp only [stopTypingForUser, hget]

theorem fire_nextId (s : TypingState) (id : Nat) :
    (fireTimer s id).1.nextId = s.nextId := by
  cases hf : findTimer s.typingTimers id with
  | none => simp only [fireTimer, hf]
  | some p =>
      rcases p with ⟨r, k⟩
      simp only [fireTimer, hf]

theorem mem_arm_located (s : TypingState) (r k : String) {p : String × List (String × Nat)}
    {q : String × Nat}
    (hp : p ∈ (scheduleTypingTimeout s r k).typingTimers) (hq : q ∈ p.2) :
    q = (k, s.nextId) ∨ ∃ p2 ∈ s.typingTimers, q ∈ p2.2 := by
  rcases mem_mset_weak hp with h | h
  · rw [h] at hq
    rcases mem_mset_weak hq with h2 | h2
    · exact Or.inl h2
    · right
      unfold getRoomTypingMap at h2
      cases hget : mget r s.typingTimers with
      | none =>
          rw [hget] at h2
          simp at h2
      | some inner =>
          rw [hget] at h2
          exact ⟨(r, inner), mget_some_mem hget, by simpa using h2⟩
  · exact Or.inr ⟨p, h, hq⟩

theorem mem_stop_located (s : TypingState) (r k : String)
    {p : String × List (String × Nat)} {q : String × Nat}
    (hp : p ∈ (stopTypingForUser s r k).typingTimers) (hq : q ∈ p.2) :
    ∃ p2 ∈ s.typingTimers, q ∈ p2.2 := by
  cases hget : mget r s.typingTimers with
  | none =>
      simp only [stopTypingForUser, hget] at hp
      exact ⟨p, hp, hq⟩
  | some inner =>
      simp only [stopTypingForUser, hget] at hp
      by_cases hgc : (if (mget k inner).isSome then mdel k inner else inner).length = 0
      · rw [if_pos hgc] at hp
        exact ⟨p, mem_mdel_sub hp, hq⟩
      · rw [if_neg hgc] at hp
        rcases mem_mset_weak hp with h | h
        · rw [h] at hq
          refine ⟨(r, inner), mget_some_mem hget, ?_⟩
          by_cases hk : (mget k inner).isSome
          · rw [if_pos hk] at hq
            exact mem_mdel_sub hq
          · rw [if_neg hk] at hq
            exact hq
        · exact ⟨p, h, hq⟩

theorem mem_fire_located (s : TypingState) (id : Nat)
    {p : String × List (String × Nat)} {q : String × Nat}
    (hp : p ∈ (fireTimer s id).1.typingTimers) (hq : q ∈ p.2) :
    ∃ p2 ∈ s.typingTimers, q ∈ p2.2 := by
  cases hf : findTimer s.typingTimers id with
  | none =>
      simp only [fireTimer, hf] at hp
      exact ⟨p, hp, hq⟩
  | some pk =>
      rcases pk with ⟨r, k⟩
      simp only [fireTimer, hf] at hp
      by_cases hgc : (mdel k ((mget r s.typingTimers).getD [])).length = 0
      · rw [if_pos hgc] at hp
        exact ⟨p, mem_mdel_sub hp, hq⟩
      · rw [if_neg hgc] at hp
        rcases mem_mset_weak hp with h | h
        · rw [h] at hq
          have hq2 := mem_mdel_sub hq
          cases hget : mget r s.typingTimers with
          | none =>
              rw [hget] at hq2
              simp at hq2
          | some inner =>
              rw [hget] at hq2
              exact ⟨(r, inner), mget_some_mem hget, by simpa using hq2⟩
        · exact ⟨p, h, hq⟩

theorem fireTimer_not_active (s : TypingState) (id : Nat)
    (hact : ¬ idActive s id) : fireTimer s id = (s, []) := by
  have hnone : findTimer s.typingTimers id = none := by
    rw [findTimer_none_iff]
    intro p hp q hq hid
    exact hact ⟨p, hp, q, hq, hid⟩
  simp only [fireTimer, hnone]

theorem tstep_dead (s : TypingState) (e : TEvent) (id : Nat)
    (hact : ¬ idActive s id) (hlt : id < s.nextId) :
    ¬ idActive (tstep s e).1 id ∧
    ∀ o ∈ (tstep s e).2, TOut.timerId o ≠ id := by
  cases e with
  | arm r k =>
      refine ⟨?_, by intro o ho; simp [tstep] at ho⟩
      rintro ⟨p, hp, q, hq, hid⟩
      rcases mem_arm_located s r k hp hq with h | ⟨p2, hp2, hq2⟩
      · rw [h] at hid
        simp only at hid
        rw [hid] at hlt
        exact absurd hlt (lt_irrefl _)
      · exact hact ⟨p2, hp2, q, hq2, hid⟩
  | cancel r k =>
      refine ⟨?_, by intro o ho; simp [tstep] at ho⟩
      rintro ⟨p, hp, q, hq, hid⟩
      obtain ⟨p2, hp2, hq2⟩ := mem_stop_located s r k hp hq
      exact hact ⟨p2, hp2, q, hq2, hid⟩
  | fire id2 =>
      refine ⟨?_, ?_⟩
      · rintro ⟨p, hp, q, hq, hid⟩
        obtain ⟨p2, hp2, hq2⟩ := mem_fire_located s id2 hp hq
        exact hact ⟨p2, hp2, q, hq2, hid⟩
      · intro o ho
        show o.timerId ≠ id
        cases hf : findTimer s.typingTimers id2 with
        | none =>
            simp only [tstep, fireTimer, hf] at ho
            exact absurd ho (by simp)
        | some pk =>
            rcases pk with ⟨r, k⟩
            simp only [tstep, fireTimer, hf] at ho
            rw [List.mem_singleton] at ho
            rw [ho]
            show id2 ≠ id
            intro hh
            obtain ⟨inner, hi, hki⟩ := findTimer_some s.typingTimers id2 r k hf
            exact hact ⟨(r, inner), hi, (k, id2), hki, by rw [hh]⟩

theorem tstep_nextId_mono (s : TypingState) (e : TEvent) :
    s.nextId ≤ (tstep s e).1.nextId := by
  cases e with
  | arm r k => exact Nat.le_succ _
  | cancel r k =>
      rw [show (tstep s (TEvent.cancel r k)).1 = stopTypingForUser s r k from rfl,
        stop_nextId]
  | fire id => rw [show (tstep s (TEvent.fire id)).1 = (fireTimer s id).1 from rfl,
      fire_nextId]

theorem trun_dead (id : Nat) : ∀ (evs : List TEvent) (s : TypingState),
    ¬ idActive s id → id < s.nextId →
    countExpired (trun s evs).2 id = 0 ∧ ¬ idActive (trun s evs).1 id ∧
    id < (trun s evs).1.nextId := by
  intro evs
  induction evs with
  | nil =>
      intro s hact hlt
      exact ⟨rfl, hact, hlt⟩
  | cons e rest ih =>
      intro s hact hlt
      obtain ⟨hact1, hout1⟩ := tstep_dead s e id hact hlt
      have hlt1 : id < (tstep s e).1.nextId :=
        lt_of_lt_of_le hlt (tstep_nextId_mono s e)
      obtain ⟨hc, ha, hl⟩ := ih (tstep s e).1 hact1 hlt1
      refine ⟨?_, ha, hl⟩
      show countExpired ((tstep s e).2 ++ (trun (tstep s e).1 rest).2) id = 0
      unfold countExpired at hc ⊢
      rw [List.countP_append, hc, Nat.add_zero]
      rw [List.countP_eq_zero]
      intro o ho
      simpa using hout1 o ho


theorem unique_location (s : TypingState) (h : TWF s) (r k : String)
    (id : Nat) (inner : List (String × Nat))
    (hget : mget r s.typingTimers = some inner) (hk : mget k inner = some id) :
    ∀ p ∈ s.typingTimers, ∀ q ∈ p.2, q.2 = id → p.1 = r ∧ q.1 = k := by
  intro p hp q hq hid
  have hin : (r, inner) ∈ s.typingTimers := mget_some_mem hget
  have hkin : (k, id) ∈ inner := mget_some_mem hk
  exact h.2.2.1 p hp q hq (r, inner) hin (k, id) hkin hid

theorem getRoomTypingMap_nodup (s : TypingState) (r : String) (h : TWF s) :
    ((getRoomTypingMap s r).map Prod.fst).Nodup := by
  unfold getRoomTypingMap
  cases hget : mget r s.typingTimers with
  | none => simp
  | some i => simpa using h.2.1 (r, i) (mget_some_mem hget)

theorem mem_getRoomTypingMap (s : TypingState) (r : String)
    {q : String × Nat} (hq : q ∈ getRoomTypingMap s r) :
    ∃ inner, mget r s.typingTimers = some inner ∧ q ∈ inner := by
  unfold getRoomTypingMap at hq
  cases hget : mget r s.typingTimers with
  | none =>
      rw [hget] at hq
      simp at hq
  | some inner =>
      rw [hget] at hq
      exact ⟨inner, rfl, by simpa using hq⟩

theorem twf_arm (s : TypingState) (r k : String) (h : TWF s) :
    TWF (scheduleTypingTimeout s r k) := by
  obtain ⟨h1, h2, h3, h4⟩ := h
  have hinner_nd : ((getRoomTypingMap s r).map Prod.fst).Nodup :=
    getRoomTypingMap_nodup s r ⟨h1, h2, h3, h4⟩
  have hdec : ∀ p ∈ (scheduleTypingTimeout s r k).typingTimers,
      p = (r, mset k s.nextId (getRoomTypingMap s r)) ∨
        (p ∈ s.typingTimers ∧ p.1 ≠ r) := by
    intro p hp
    exact (mem_mset_iff h1).mp hp
  have hclassify : ∀ p ∈ (scheduleTypingTimeout s r k).typingTimers,
      ∀ q ∈ p.2, (p.1 = r ∧ q = (k, s.nextId)) ∨
        (∃ p2 ∈ s.typingTimers, p2.1 = p.1 ∧ q ∈ p2.2) := by
    intro p hp q hq
    rcases hdec p hp with hnew | ⟨hold, hner⟩
    · have hq2 : q ∈ mset k s.nextId (getRoomTypingMap s r) := by
        rw [hnew] at hq
        exact hq
      rcases (mem_mset_iff hinner_nd).mp hq2 with hh | ⟨hqi, hqk⟩
      · exact Or.inl ⟨by rw [hnew], hh⟩
      · obtain ⟨inner, hget, hqp⟩ := mem_getRoomTypingMap s r hqi
        exact Or.inr ⟨(r, inner), mget_some_mem hget, by rw [hnew], hqp⟩
    · exact Or.inr ⟨p, hold, rfl, hq⟩
  refine ⟨?_, ?_, ?_, ?_⟩
  · exact nodup_keys_mset _ _ _ h1
  · intro p hp
    rcases hdec p hp with hnew | ⟨hold, _⟩
    · rw [hnew]
      exact nodup_keys_mset _ _ _ hinner_nd
    · exact h2 p hold
  · intro p1 hp1 q1 hq1 p2 hp2 q2 hq2 heq
    rcases hclassify p1 hp1 q1 hq1 with ⟨hr1, hq1e⟩ | ⟨p1x, hp1x, hpr1, hq1x⟩
    · rcases hclassify p2 hp2 q2 hq2 with ⟨hr2, hq2e⟩ | ⟨p2x, hp2x, hpr2, hq2x⟩
      · constructor
        · rw [hr1, hr2]
        · rw [hq1e, hq2e]
      · have hlt := h4 p2x hp2x q2 hq2x
        rw [← heq] at hlt
        rw [hq1e] at hlt
        exact absurd hlt (lt_irrefl _)
    · rcases hclassify p2 hp2 q2 hq2 with ⟨hr2, hq2e⟩ | ⟨p2x, hp2x, hpr2, hq2x⟩
      · have hlt := h4 p1x hp1x q1 hq1x
        rw [heq] at hlt
        rw [hq2e] at hlt
        exact absurd hlt (lt_irrefl _)
      · obtain ⟨ha, hb⟩ := h3 p1x hp1x q1 hq1x p2x hp2x q2 hq2x heq
        exact ⟨by rw [← hpr1, ← hpr2]; exact ha, hb⟩
  · intro p hp q hq
    rcases hclassify p hp q hq with ⟨_, hqe⟩ | ⟨p2x, hp2x, _, hq2x⟩
    · rw [hqe]
      exact Nat.lt_succ_self _
    · exact Nat.lt_succ_of_lt (h4 p2x hp2x q hq2x)

theorem twf_stop (s : TypingState) (r k : String) (h : TWF s) :
    TWF (stopTypingForUser s r k) := by
  obtain ⟨h1, h2, h3, h4⟩ := h
  cases hget : mget r s.typingTimers with
  | none =>
      simp only [stopTypingForUser, hget]
      exact ⟨h1, h2, h3, h4⟩
  | some inner =>
      have hinner_nd : (inner.map Prod.fst).Nodup :=
        h2 (r, inner) (mget_some_mem hget)
      have hclassify : ∀ p ∈ (stopTypingForUser s r k).typingTimers,
          ∀ q ∈ p.2, ∃ p2 ∈ s.typingTimers, p2.1 = p.1 ∧ q ∈ p2.2 := by
        intro p hp q hq
        simp only [stopTypingForUser, hget] at hp
        by_cases hgc :
            (if (mget k inner).isSome then mdel k inner else inner).length = 0
        · rw [if_pos hgc] at hp
          exact ⟨p, mem_mdel_sub hp, rfl, hq⟩
        · rw [if_neg hgc] at hp
          rcases mem_mset_weak hp with hh | hh
          · refine ⟨(r, inner), mget_some_mem hget, by rw [hh], ?_⟩
            rw [hh] at hq
            by_cases hk : (mget k inner).isSome
            · rw [if_pos hk] at hq
              exact mem_mdel_sub hq
            · rw [if_neg hk] at hq
              exact hq
          · exact ⟨p, hh, rfl, hq⟩
      refine ⟨?_, ?_, ?_, ?_⟩
      · simp only [stopTypingForUser, hget]
        by_cases hgc :
            (if (mget k inner).isSome then mdel k inner else inner).length = 0
        · rw [if_pos hgc]
          exact nodup_keys_mdel _ _ h1
        · rw [if_neg hgc]
          exact nodup_keys_mset _ _ _ h1
      · intro p hp
        simp only [stopTypingForUser, hget] at hp
        by_cases hgc :
            (if (mget k inner).isSome then mdel k inner else inner).length = 0
        · rw [if_pos hgc] at hp
          exact h2 p (mem_mdel_sub hp)
        · rw [if_neg hgc] at hp
          rcases mem_mset_weak hp with hh | hh
          · rw [hh]
            by_cases hk : (mget k inner).isSome
            · rw [if_pos hk]
              exact nodup_keys_mdel _ _ hinner_nd
            · rw [if_neg hk]
              exact hinner_nd
          · exact h2 p hh
      · intro p1 hp1 q1 hq1 p2 hp2 q2 hq2 heq
        obtain ⟨p1x, hp1x, hpr1, hq1x⟩ := hclassify p1 hp1 q1 hq1
        obtain ⟨p2x, hp2x, hpr2, hq2x⟩ := hclassify p2 hp2 q2 hq2
        obtain ⟨ha, hb⟩ := h3 p1x hp1x q1 hq1x p2x hp2x q2 hq2x heq
        exact ⟨by rw [← hpr1, ← hpr2]; exact ha, hb⟩
      · intro p hp q hq
        obtain ⟨p2x, hp2x, _, hq2x⟩ := hclassify p hp q hq
        rw [show (stopTypingForUser s r k).nextId = s.nextId from
          stop_nextId s r k]
        exact h4 p2x hp2x q hq2x

theorem twf_fire (s : TypingState) (id : Nat) (h : TWF s) :
    TWF (fireTimer s id).1 := by
  obtain ⟨h1, h2, h3, h4⟩ := h
  cases hf : findTimer s.typingTimers id with
  | none =>
      simp only [fireTimer, hf]
      exact ⟨h1, h2, h3, h4⟩
  | some pk =>
      rcases pk with ⟨r, k⟩
      obtain ⟨inner0, hi0, hki0⟩ := findTimer_some s.typingTimers id r k hf
      have hget : mget r s.typingTimers = some inner0 := mem_mget h1 hi0
      have hinner_nd : (inner0.map Prod.fst).Nodup := h2 (r, inner0) hi0
      have hclassify : ∀ p ∈ (fireTimer s id).1.typingTimers,
          ∀ q ∈ p.2, ∃ p2 ∈ s.typingTimers, p2.1 = p.1 ∧ q ∈ p2.2 := by
        intro p hp q hq
        simp only [fireTimer, hf] at hp
        by_cases hgc : (mdel k ((mget r s.typingTimers).getD [])).length = 0
        · rw [if_pos hgc] at hp
          exact ⟨p, mem_mdel_sub hp, rfl, hq⟩
        · rw [if_neg hgc] at hp
          rcases mem_mset_weak hp with hh | hh
          · refine ⟨(r, inner0), hi0, by rw [hh], ?_⟩
            rw [hh] at hq
            have := mem_mdel_sub hq
            rw [hget] at this
            simpa using this
          · exact ⟨p, hh, rfl, hq⟩
      refine ⟨?_, ?_, ?_, ?_⟩
      · simp only [fireTimer, hf]
        by_cases hgc : (mdel k ((mget r s.typingTimers).getD [])).length = 0
        · rw [if_pos hgc]
          exact nodup_keys_mdel _ _ h1
        · rw [if_neg hgc]
          exact nodup_keys_mset _ _ _ h1
      · intro p hp
        simp only [fireTimer, hf] at hp
        by_cases hgc : (mdel k ((mget r s.typingTimers).getD [])).length = 0
        · rw [if_pos hgc] at hp
          exact h2 p (mem_mdel_sub hp)
        · rw [if_neg hgc] at hp
          rcases mem_mset_weak hp with hh | hh
          · rw [hh]
            rw [hget]
            simp only [Option.getD_some]
            exact nodup_keys_mdel _ _ hinner_nd
          · exact h2 p hh
      · intro p1 hp1 q1 hq1 p2 hp2 q2 hq2 heq
        obtain ⟨p1x, hp1x, hpr1, hq1x⟩ := hclassify p1 hp1 q1 hq1
        obtain ⟨p2x, hp2x, hpr2, hq2x⟩ := hclassify p2 hp2 q2 hq2
        obtain ⟨ha, hb⟩ := h3 p1x hp1x q1 hq1x p2x hp2x q2 hq2x heq
        exact ⟨by rw [← hpr1, ← hpr2]; exact ha, hb⟩
      · intro p hp q hq
        obtain ⟨p2x, hp2x, _, hq2x⟩ := hclassify p hp q hq
        rw [fire_nextId]
        exact h4 p2x hp2x q hq2x

theorem tstep_twf (s : TypingState) (e : TEvent) (h : TWF s) :
    TWF (tstep s e).1 := by
  cases e with
  | arm r k => exact twf_arm s r k h
  | cancel r k => exact twf_stop s r k h
  | fire id => exact twf_fire s id h

theorem fire_active_spec (s : TypingState) (id : Nat) (h : TWF s)
    (hact : idActive s id) :
    (∃ r k, (fireTimer s id).2 = [TOut.expired r k id]) ∧
    ¬ idActive (fireTimer s id).1 id := by
  cases hf : findTimer s.typingTimers id with
  | none =>
      obtain ⟨p, hp, q, hq, hid⟩ := hact
      exact absurd hid ((findTimer_none_iff s.typingTimers id).mp hf p hp q hq)
  | some pk =>
      rcases pk with ⟨r, k⟩
      obtain ⟨inner0, hi0, hki0⟩ := findTimer_some s.typingTimers id r k hf
      have hget : mget r s.typingTimers = some inner0 := mem_mget h.1 hi0
      have hinner_nd : (inner0.map Prod.fst).Nodup := h.2.1 (r, inner0) hi0
      have hk : mget k inner0 = some id := mem_mget hinner_nd hki0
      have huniq := unique_location s h r k id inner0 hget hk
      constructor
      · refine ⟨r, k, ?_⟩
        simp only [fireTimer, hf]
      · rintro ⟨p, hp, q, hq, hid⟩
        simp only [fireTimer, hf] at hp
        by_cases hgc : (mdel k ((mget r s.typingTimers).getD [])).length = 0
        · rw [if_pos hgc] at hp
          obtain ⟨hpm, hpk⟩ := (mem_mdel_iff h.1).mp hp
          exact hpk (huniq p hpm q hq hid).1
        · rw [if_neg hgc] at hp
          rcases (mem_mset_iff h.1).mp hp with hh | ⟨hpm, hpk⟩
          · rw [hh] at hq
            rw [hget] at hq
            simp only [Option.getD_some] at hq
            obtain ⟨hqm, hqk⟩ := (mem_mdel_iff hinner_nd).mp hq
            exact hqk (huniq (r, inner0) hi0 q hqm hid).2
          · exact hpk (huniq p hpm q hq hid).1

theorem trun_count (id : Nat) : ∀ (evs : List TEvent) (s : TypingState),
    TWF s → id < s.nextId → countExpired (trun s evs).2 id ≤ 1 := by
  intro evs
  induction evs with
  | nil =>
      intro s _ _
      exact Nat.zero_le 1
  | cons e rest ih =>
      intro s h hlt
      show countExpired ((tstep s e).2 ++ (trun (tstep s e).1 rest).2) id ≤ 1
      unfold countExpired
      rw [List.countP_append]
      have hnext := tstep_nextId_mono s e
      have htwf := tstep_twf s e h
      cases e with
      | arm r k =>
          have h0 : (tstep s (TEvent.arm r k)).2 = [] := rfl
          rw [h0]
          have hrest := ih (tstep s (TEvent.arm r k)).1 htwf
            (lt_of_lt_of_le hlt hnext)
          unfold countExpired at hrest
          simpa using hrest
      | cancel r k =>
          have h0 : (tstep s (TEvent.cancel r k)).2 = [] := rfl
          rw [h0]
          have hrest := ih (tstep s (TEvent.cancel r k)).1 htwf
            (lt_of_lt_of_le hlt hnext)
          unfold countExpired at hrest
          simpa using hrest
      | fire id2 =>
          show List.countP (fun o => o.timerId == id) (fireTimer s id2).2 +
            List.countP (fun o => o.timerId == id)
              (trun (fireTimer s id2).1 rest).2 ≤ 1
          by_cases hact : idActive s id2
          · obtain ⟨⟨r, k, hout⟩, hdead2⟩ := fire_active_spec s id2 h hact
            rw [hout]
            by_cases hid : id2 = id
            · have hcnt : List.countP (fun o => o.timerId == id)
                  [TOut.expired r k id2] = 1 := by
                simp [TOut.timerId, hid]
              rw [hcnt]
              have hdead : ¬ idActive (fireTimer s id2).1 id := by
                rw [← hid]
                exact hdead2
              have hlt2 : id < (fireTimer s id2).1.nextId := by
                rw [fire_nextId]
                exact hlt
              obtain ⟨hzero, _, _⟩ := trun_dead id rest (fireTimer s id2).1
                hdead hlt2
              unfold countExpired at hzero
              rw [hzero]
            · have hcnt : List.countP (fun o => o.timerId == id)
                  [TOut.expired r k id2] = 0 := by
                simp [TOut.timerId, hid]
              rw [hcnt, Nat.zero_add]
              exact ih (fireTimer s id2).1 htwf (lt_of_lt_of_le hlt hnext)
          · rw [fireTimer_not_active s id2 hact]
            have hrest := ih s h hlt
            unfold countExpired at hrest
            simpa using hrest


theorem joinRoom_typing (st : EngineState) (ws : Nat) (roomId : String)
    (rec : Option RoomRecord) (p : Bool) (ca : String) :
    (joinRoom st ws roomId rec p ca).1.typing = st.typing := by
  cases hm : mget ws st.socketMeta with
  | none => simp only [joinRoom, hm]
  | some meta =>
      cases rec with
      | none => simp only [joinRoom, hm]
      | some rc =>
          simp only [joinRoom, hm]
          by_cases hc2 : canJoinRoom (some rc) meta.userId = true
          · rw [if_neg (by simp [hc2])]
            cases p <;> rfl
          · rw [if_pos (by simp [hc2])]

theorem readReceipt_typing (st : EngineState) (ws : Nat) (r : String)
    (now : Nat) : (readReceiptHandler st ws r now).1.typing = st.typing := by
  cases hm : mget ws st.socketMeta with
  | none => simp only [readReceiptHandler, hm]
  | some meta =>
      simp only [readReceiptHandler, hm]
      by_cases hj : r ∈ meta.rooms
      · cases hr : mget r st.rooms with
        | none => simp [hj, hr]
        | some room => simp [hj, hr]
      · simp [hj]

theorem moderation_typing (st : EngineState) (r : String) (u : Nat) :
    (removeUserFromRoom st r u).typing = st.typing := by
  cases hroom : mget r st.rooms with
  | none => simp only [removeUserFromRoom, hroom]
  | some room => simp only [removeUserFromRoom, hroom]

theorem typingHandler_twf (st : EngineState) (ws : Nat) (r : String)
    (b : Bool) (hT : TWF st.typing) :
    TWF ((typingHandler st ws r b).1).typing := by
  cases hm : mget ws st.socketMeta with
  | none =>
      simp only [typingHandler, hm]
      exact hT
  | some meta =>
      simp only [typingHandler, hm]
      by_cases hj : r ∈ meta.rooms
      · cases hr : mget r st.rooms with
        | none =>
            simp only [hj, not_true, if_true, hr]
            simp [hj]
            exact hT
        | some room =>
            cases b with
            | false =>
                simp [hj, hr]
                exact twf_stop _ _ _ hT
            | true =>
                simp [hj, hr]
                exact twf_arm _ _ _ hT
      · simp [hj]
        exact hT

theorem closeRooms_twf (ws userId : Nat) (username : String) (persistOk : Bool)
    (createdAt : String) :
    ∀ (l : List String) (st : EngineState), TWF st.typing →
      TWF (closeRooms ws userId username persistOk createdAt st l).1.typing := by
  intro l
  induction l with
  | nil =>
      intro st h
      exact h
  | cons roomId rest ih =>
      intro st h
      cases hroom : mget roomId st.rooms with
      | none =>
          simp only [closeRooms, hroom]
          exact ih st h
      | some room =>
          simp only [closeRooms, hroom]
          cases persistOk with
          | false => exact twf_stop _ _ _ h
          | true => exact ih _ (twf_stop st.typing roomId (toString userId) h)

theorem closeConn_twf (st : EngineState) (ws : Nat) (p : Bool) (ca : String)
    (h : TWF st.typing) : TWF (closeConn st ws p ca).1.typing := by
  cases hm : mget ws st.socketMeta with
  | none =>
      simp only [closeConn, hm]
      exact h
  | some meta =>
      simp only [closeConn, hm]
      by_cases hd : (closeRooms ws meta.userId meta.username p ca st
        meta.rooms).2.2 = true
      · rw [if_pos hd]
        exact closeRooms_twf ws meta.userId meta.username p ca meta.rooms st h
      · rw [if_neg hd]
        exact closeRooms_twf ws meta.userId meta.username p ca meta.rooms st h

theorem ewf_applyOp (st : EngineState) (op : Op) (h : EWF st)
    (hv : validOp st op) (hc : opCompletes op) : EWF (applyOp st op).1 := by
  obtain ⟨hWF, hT⟩ := h
  cases op with
  | connect ws u n =>
      exact ⟨wf2_connect st.rooms st.socketMeta ws u n hWF hv.2, hT⟩
  | join ws r rec p ca =>
      refine ⟨wf_join st ws r ca rec p hWF, ?_⟩
      show TWF (joinRoom st ws r rec p ca).1.typing
      rw [joinRoom_typing]
      exact hT
  | send ws r t p ca =>
      show EWF (sendMessage st ws r t p ca).1
      rw [sendMessage_fst st ws r t ca p]
      exact ⟨hWF, hT⟩
  | typingOp ws r b =>
      refine ⟨?_, typingHandler_twf st ws r b hT⟩
      obtain ⟨h1, h2⟩ := typingHandler_same_maps st ws r b
      exact wf_of_eq st _ h1 h2 hWF
  | readOp ws r now =>
      refine ⟨?_, ?_⟩
      · obtain ⟨h1, h2⟩ := readReceiptHandler_same_maps st ws r now
        exact wf_of_eq st _ h1 h2 hWF
      · show TWF (readReceiptHandler st ws r now).1.typing
        rw [readReceipt_typing]
        exact hT
  | close ws p ca =>
      have hp : p = true := hc
      rw [hp]
      refine ⟨?_, closeConn_twf st ws true ca hT⟩
      exact wf_close st ws ca hWF hT.1
        (fun r i hi => hT.2.1 (r, i) (mget_some_mem hi))
  | moderation r u =>
      refine ⟨wf_moderation st r u hWF, ?_⟩
      show TWF (removeUserFromRoom st r u).typing
      rw [moderation_typing]
      exact hT
  | fire id =>
      exact ⟨wf_of_eq st _ rfl rfl hWF, twf_fire st.typing id hT⟩


theorem count_flatMap_zero {α β : Type} [DecidableEq β] (l : List α)
    (f : α → List β) (x : β) (h : ∀ b ∈ l, (f b).count x = 0) :
    (l.flatMap f).count x = 0 := by
  induction l with
  | nil => rfl
  | cons a rest ih =>
      rw [List.flatMap_cons, List.count_append, h a (List.mem_cons_self _ _),
        ih (fun b hb => h b (List.mem_cons_of_mem _ hb)), Nat.add_zero]

theorem count_flatMap_one {α β : Type} [DecidableEq β]
    (f : α → List β) (x : β) (a : α) (hone : (f a).count x = 1) :
    ∀ l : List α, l.Nodup → a ∈ l →
      (∀ b ∈ l, b ≠ a → (f b).count x = 0) →
      (l.flatMap f).count x = 1 := by
  intro l
  induction l with
  | nil =>
      intro _ ha _
      simp at ha
  | cons b rest ih =>
      intro hnd ha hzero
      rw [List.nodup_cons] at hnd
      rw [List.flatMap_cons, List.count_append]
      rcases List.mem_cons.mp ha with hab | hab
      · have h1 : (f b).count x = 1 := by
          rw [← hab]
          exact hone
        have h0 : (rest.flatMap f).count x = 0 := by
          apply count_flatMap_zero
          intro c hc
          apply hzero c (List.mem_cons_of_mem _ hc)
          intro he
          apply hnd.1
          rw [← hab, ← he]
          exact hc
        rw [h1, h0]
      · have hb0 : (f b).count x = 0 := by
          apply hzero b (List.mem_cons_self _ _)
          intro he
          apply hnd.1
          rw [he]
          exact hab
        rw [hb0, Nat.zero_add]
        exact ih hnd.2 hab
          (fun c hc hca => hzero c (List.mem_cons_of_mem _ hc) hca)

theorem leave_block_count (username createdAt : String) (userId : Nat)
    (subs : List Nat) (r r0 : String) :
    ((subs.map (fun c => Effect.sendAttempt c (Frame.typing r username false)) ++
      [Effect.persistAttempt r userId username "SYSTEM"
        (username ++ " left " ++ r)]) ++
      subs.map (fun c => Effect.sendAttempt c
        (Frame.system r (username ++ " left " ++ r) createdAt))).count
      (Effect.persistAttempt r0 userId username "SYSTEM"
        (username ++ " left " ++ r0)) = if r = r0 then 1 else 0 := by
  rw [List.count_append, List.count_append]
  have h1 : (subs.map (fun c =>
      Effect.sendAttempt c (Frame.typing r username false))).count
      (Effect.persistAttempt r0 userId username "SYSTEM"
        (username ++ " left " ++ r0)) = 0 := by
    rw [List.count_eq_zero]
    simp
  have h3 : (subs.map (fun c => Effect.sendAttempt c
      (Frame.system r (username ++ " left " ++ r) createdAt))).count
      (Effect.persistAttempt r0 userId username "SYSTEM"
        (username ++ " left " ++ r0)) = 0 := by
    rw [List.count_eq_zero]
    simp
  have h2 : ([Effect.persistAttempt r userId username "SYSTEM"
      (username ++ " left " ++ r)]).count
      (Effect.persistAttempt r0 userId username "SYSTEM"
        (username ++ " left " ++ r0)) = if r = r0 then 1 else 0 := by
    by_cases hr : r = r0
    · rw [if_pos hr, hr]
      simp
    · rw [if_neg hr]
      rw [List.count_eq_zero]
      simp
      intro hh
      exact absurd hh.symm hr
  rw [h1, h2, h3, Nat.zero_add, Nat.add_zero]

/-- Claim C1: over the combined inductive invariant EWF (well-formed maps
plus a well-formed typing coordinator), every completed engine operation
of setupWebSocket preserves the invariant, and in particular a connection
sits in a room subscriber set exactly when the room sits in the joined
room set of that connection metadata; EWF holds of the initial state, so
the bidirectional property holds at every observable point. -/
theorem c1_bidirectional_membership :
    EWF engineInit ∧
    ∀ st op, EWF st → validOp st op → opCompletes op →
      EWF (applyOp st op).1 ∧
      ∀ c r, c ∈ subsOf (applyOp st op).1 r ↔
        inMetaRooms (applyOp st op).1 c r = true := by
  constructor
  · decide
  · intro st op hE hv hc
    have h2 := ewf_applyOp st op hE hv hc
    exact ⟨h2, wf_bidir _ h2.1⟩

theorem c1_witness :
    EWF engineInit ∧ validOp engineInit (Op.connect 1 10 "a") ∧
    opCompletes (Op.connect 1 10 "a") ∧
    (EWF (applyOp engineInit (Op.connect 1 10 "a")).1 ∧
      ∀ c r, c ∈ subsOf (applyOp engineInit (Op.connect 1 10 "a")).1 r ↔
        inMetaRooms (applyOp engineInit (Op.connect 1 10 "a")).1 c r = true) := by
  have hv : validOp engineInit (Op.connect 1 10 "a") := by
    constructor
    · rfl
    · intro r hmem
      simp [subsOf, rsub, engineInit, mget] at hmem
  exact ⟨c1_bidirectional_membership.1, hv, trivial,
    c1_bidirectional_membership.2 engineInit _ c1_bidirectional_membership.1
      hv trivial⟩

/-- Claim C9: every completed engine operation keeps every room subscriber
set duplicate-free (a JavaScript Set holds no duplicates and the model
preserves that invariant), and a second non-forced JOIN_ROOM by an
already-subscribed connection leaves the engine state, and hence the
subscriber set size, unchanged. -/
theorem c9_subscriber_sets_duplicate_free :
    (∀ st op, EWF st → validOp st op → opCompletes op →
      ∀ r s, mget r (applyOp st op).1.rooms = some s → s.Nodup) ∧
    (∀ st ws roomId createdAt rec persistOk meta, WF st →
      mget ws st.socketMeta = some meta → roomId ∈ meta.rooms →
      canJoinRoom (some rec) meta.userId = true →
      (joinRoom st ws roomId (some rec) persistOk createdAt).1 = st ∧
      (subsOf (joinRoom st ws roomId (some rec) persistOk createdAt).1
        roomId).length = (subsOf st roomId).length) := by
  constructor
  · intro st op hE hv hc r s hs
    exact wf2_subs_nodup (ewf_applyOp st op hE hv hc).1 r s hs
  · intro st ws roomId createdAt rec persistOk meta hWF hmeta hjoined hcan
    have heq := join_rejoin_state_eq st ws roomId createdAt rec persistOk meta
      hWF hmeta hjoined hcan
    have h1 : (joinRoom st ws roomId (some rec) persistOk createdAt).1 = st := by
      rw [heq]
    exact ⟨h1, by rw [h1]⟩

theorem c9_witness :
    WF ⟨[("general", [1])], [(1, ⟨10, "alice", ["general"]⟩)], ⟨[], 1⟩, []⟩ ∧
    mget 1 [(1, (⟨10, "alice", ["general"]⟩ : SocketMeta))] =
      some ⟨10, "alice", ["general"]⟩ ∧
    "general" ∈ (⟨10, "alice", ["general"]⟩ : SocketMeta).rooms ∧
    canJoinRoom (some ⟨"public", [], []⟩) 10 = true ∧
    ((joinRoom ⟨[("general", [1])], [(1, ⟨10, "alice", ["general"]⟩)],
        ⟨[], 1⟩, []⟩ 1 "general" (some ⟨"public", [], []⟩) true "t").1 =
      ⟨[("general", [1])], [(1, ⟨10, "alice", ["general"]⟩)], ⟨[], 1⟩, []⟩ ∧
      (subsOf (joinRoom ⟨[("general", [1])], [(1, ⟨10, "alice", ["general"]⟩)],
        ⟨[], 1⟩, []⟩ 1 "general" (some ⟨"public", [], []⟩) true "t").1
        "general").length =
      (subsOf ⟨[("general", [1])], [(1, ⟨10, "alice", ["general"]⟩)],
        ⟨[], 1⟩, []⟩ "general").length) :=
  ⟨by decide, by decide, by decide, by decide,
    c9_subscriber_sets_duplicate_free.2
      ⟨[("general", [1])], [(1, ⟨10, "alice", ["general"]⟩)], ⟨[], 1⟩, []⟩
      1 "general" "t" ⟨"public", [], []⟩ true ⟨10, "alice", ["general"]⟩
      (by decide) (by decide) (by decide) (by decide)⟩

/-- Claim C6: when a socket closes while subscribed to rooms, then for
each such room the user typing timer for that room has been cancelled,
exactly one SYSTEM leave notice is persisted, the leave notice is
broadcast to every subscriber of that room, the connection is removed
from every subscriber set, and the room entry is dropped exactly when its
subscriber set becomes empty. -/
theorem c6_disconnect_cleanup (st : EngineState) (ws : Nat)
    (createdAt : String) (meta : SocketMeta)
    (hE : EWF st)
    (hmeta : mget ws st.socketMeta = some meta) :
    (∀ r ∈ meta.rooms, timerFor (closeConn st ws true createdAt).1.typing r
      (toString meta.userId) = none) ∧
    (∀ r ∈ meta.rooms, (closeConn st ws true createdAt).2.count
      (Effect.persistAttempt r meta.userId meta.username "SYSTEM"
        (meta.username ++ " left " ++ r)) = 1) ∧
    (∀ r ∈ meta.rooms, ∀ c ∈ subsOf st r,
      Effect.sendAttempt c (Frame.system r (meta.username ++ " left " ++ r)
        createdAt) ∈ (closeConn st ws true createdAt).2) ∧
    (∀ r, ws ∉ subsOf (closeConn st ws true createdAt).1 r) ∧
    (∀ r ∈ meta.rooms, mget r (closeConn st ws true createdAt).1.rooms =
      if ((subsOf st r).erase ws).length = 0 then none
      else some ((subsOf st r).erase ws)) := by
  obtain ⟨hWF, hT⟩ := hE
  have hti : ∀ r i, mget r st.typing.typingTimers = some i →
      (i.map Prod.fst).Nodup :=
    fun r i hi => hT.2.1 (r, i) (mget_some_mem hi)
  have hnd : meta.rooms.Nodup := wf_meta_rooms_nodup st hWF ws meta hmeta
  have hmem : ∀ r, ws ∈ rsub st.rooms r ↔ r ∈ meta.rooms :=
    fun r => (wf2_bidir hWF ws r).trans
      (inMeta_eq_of_mget st.socketMeta ws r meta hmeta)
  obtain ⟨hmeta', hrooms, hkeys, hsubs, htin, heffs⟩ :=
    closeConn_spec st ws createdAt meta hWF hmeta hT.1 hti
  refine ⟨htin, ?_, ?_, ?_, ?_⟩
  · intro r hr
    rw [heffs]
    refine count_flatMap_one _ _ r ?_ meta.rooms hnd hr ?_
    · rw [leave_block_count]
      simp
    · intro b hb hbr
      rw [leave_block_count]
      simp [hbr]
  · intro r hr c hc
    rw [heffs]
    rw [List.mem_flatMap]
    refine ⟨r, hr, ?_⟩
    rw [List.mem_append]
    right
    rw [List.mem_map]
    exact ⟨c, hc, rfl⟩
  · intro r
    show ws ∉ (mget r (closeConn st ws true createdAt).1.rooms).getD []
    rw [hrooms r]
    by_cases hr : r ∈ meta.rooms
    · rw [if_pos hr]
      by_cases hgc : ((rsub st.rooms r).erase ws).length = 0
      · rw [if_pos hgc]
        simp
      · rw [if_neg hgc]
        simp only [Option.getD_some]
        intro hmm2
        rw [(rsub_nodup hWF r).mem_erase_iff] at hmm2
        exact absurd rfl hmm2.1
    · rw [if_neg hr]
      intro hmm2
      exact hr ((hmem r).mp hmm2)
  · intro r hr
    rw [hrooms r, if_pos hr]
    rfl

theorem c6_witness :
    EWF ⟨[("general", [1, 2]), ("misc", [1])],
      [(1, ⟨10, "alice", ["general", "misc"]⟩), (2, ⟨20, "bob", ["general"]⟩)],
      ⟨[], 1⟩, []⟩ ∧
    mget 1 [(1, (⟨10, "alice", ["general", "misc"]⟩ : SocketMeta)),
      (2, ⟨20, "bob", ["general"]⟩)] = some ⟨10, "alice", ["general", "misc"]⟩ ∧
    ((∀ r ∈ (["general", "misc"] : List String),
      timerFor (closeConn ⟨[("general", [1, 2]), ("misc", [1])],
        [(1, ⟨10, "alice", ["general", "misc"]⟩), (2, ⟨20, "bob", ["general"]⟩)],
        ⟨[], 1⟩, []⟩ 1 true "t").1.typing r (toString 10) = none) ∧
    (∀ r ∈ (["general", "misc"] : List String),
      (closeConn ⟨[("general", [1, 2]), ("misc", [1])],
        [(1, ⟨10, "alice", ["general", "misc"]⟩), (2, ⟨20, "bob", ["general"]⟩)],
        ⟨[], 1⟩, []⟩ 1 true "t").2.count
        (Effect.persistAttempt r 10 "alice" "SYSTEM"
          ("alice" ++ " left " ++ r)) = 1) ∧
    (∀ r ∈ (["general", "misc"] : List String),
      ∀ c ∈ subsOf ⟨[("general", [1, 2]), ("misc", [1])],
        [(1, ⟨10, "alice", ["general", "misc"]⟩), (2, ⟨20, "bob", ["general"]⟩)],
        ⟨[], 1⟩, []⟩ r,
      Effect.sendAttempt c (Frame.system r ("alice" ++ " left " ++ r) "t") ∈
        (closeConn ⟨[("general", [1, 2]), ("misc", [1])],
          [(1, ⟨10, "alice", ["general", "misc"]⟩), (2, ⟨20, "bob", ["general"]⟩)],
          ⟨[], 1⟩, []⟩ 1 true "t").2) ∧
    (∀ r, 1 ∉ subsOf (closeConn ⟨[("general", [1, 2]), ("misc", [1])],
      [(1, ⟨10, "alice", ["general", "misc"]⟩), (2, ⟨20, "bob", ["general"]⟩)],
      ⟨[], 1⟩, []⟩ 1 true "t").1 r) ∧
    (∀ r ∈ (["general", "misc"] : List String),
      mget r (closeConn ⟨[("general", [1, 2]), ("misc", [1])],
        [(1, ⟨10, "alice", ["general", "misc"]⟩), (2, ⟨20, "bob", ["general"]⟩)],
        ⟨[], 1⟩, []⟩ 1 true "t").1.rooms =
      if ((subsOf ⟨[("general", [1, 2]), ("misc", [1])],
        [(1, ⟨10, "alice", ["general", "misc"]⟩), (2, ⟨20, "bob", ["general"]⟩)],
        ⟨[], 1⟩, []⟩ r).erase 1).length = 0 then none
      else some ((subsOf ⟨[("general", [1, 2]), ("misc", [1])],
        [(1, ⟨10, "alice", ["general", "misc"]⟩), (2, ⟨20, "bob", ["general"]⟩)],
        ⟨[], 1⟩, []⟩ r).erase 1))) :=
  ⟨by decide, by decide,
    c6_disconnect_cleanup
      ⟨[("general", [1, 2]), ("misc", [1])],
        [(1, ⟨10, "alice", ["general", "misc"]⟩), (2, ⟨20, "bob", ["general"]⟩)],
        ⟨[], 1⟩, []⟩ 1 "t" ⟨10, "alice", ["general", "misc"]⟩
      (by decide) (by decide)⟩


theorem arm_replaces (s : TypingState) (r k : String) (oldId : Nat)
    (h : TWF s) (hold : timerFor s r k = some oldId) :
    timerFor (scheduleTypingTimeout s r k) r k = some s.nextId ∧
    ¬ idActive (scheduleTypingTimeout s r k) oldId ∧
    oldId < (scheduleTypingTimeout s r k).nextId := by
  unfold timerFor getRoomTypingMap at hold
  have hnew : timerFor (scheduleTypingTimeout s r k) r k = some s.nextId := by
    unfold timerFor getRoomTypingMap
    simp only [scheduleTypingTimeout]
    rw [mget_mset_self]
    simp only [Option.getD_some]
    exact mget_mset_self _ _ _
  cases hget : mget r s.typingTimers with
  | none =>
      rw [hget] at hold
      simp [mget] at hold
  | some inner =>
      rw [hget] at hold
      simp only [Option.getD_some] at hold
      have hrt : getRoomTypingMap s r = inner := by
        unfold getRoomTypingMap
        rw [hget]
        rfl
      have hinner_nd : (inner.map Prod.fst).Nodup :=
        h.2.1 (r, inner) (mget_some_mem hget)
      have huniq := unique_location s h r k oldId inner hget hold
      have hlt : oldId < s.nextId :=
        h.2.2.2 (r, inner) (mget_some_mem hget) (k, oldId) (mget_some_mem hold)
      refine ⟨hnew, ?_, Nat.lt_succ_of_lt hlt⟩
      rintro ⟨p, hp, q, hq, hid⟩
      simp only [scheduleTypingTimeout] at hp
      rw [hrt] at hp
      rcases (mem_mset_iff h.1).mp hp with hh | ⟨hpm, hpk⟩
      · rw [hh] at hq
        have hq2 : q ∈ mset k s.nextId inner := hq
        rcases (mem_mset_iff hinner_nd).mp hq2 with hh2 | ⟨hqm, hqk⟩
        · have hcontr : s.nextId = oldId := by
            rw [hh2] at hid
            exact hid
          rw [hcontr] at hlt
          exact absurd hlt (lt_irrefl _)
        · exact hqk (huniq (r, inner) (mget_some_mem hget) q hqm hid).2
      · exact hpk (huniq p hpm q hq hid).1

theorem stop_kills (s : TypingState) (r k : String) (id : Nat)
    (h : TWF s) (hold : timerFor s r k = some id) :
    ¬ idActive (stopTypingForUser s r k) id ∧
    id < (stopTypingForUser s r k).nextId := by
  unfold timerFor getRoomTypingMap at hold
  cases hget : mget r s.typingTimers with
  | none =>
      rw [hget] at hold
      simp [mget] at hold
  | some inner =>
      rw [hget] at hold
      simp only [Option.getD_some] at hold
      have hinner_nd : (inner.map Prod.fst).Nodup :=
        h.2.1 (r, inner) (mget_some_mem hget)
      have huniq := unique_location s h r k id inner hget hold
      have hlt : id < s.nextId :=
        h.2.2.2 (r, inner) (mget_some_mem hget) (k, id) (mget_some_mem hold)
      have hks : (mget k inner).isSome = true := by
        rw [hold]
        rfl
      constructor
      · rintro ⟨p, hp, q, hq, hid⟩
        simp only [stopTypingForUser, hget] at hp
        rw [if_pos hks] at hp
        by_cases hgc : (mdel k inner).length = 0
        · rw [if_pos hgc] at hp
          obtain ⟨hpm, hpk⟩ := (mem_mdel_iff h.1).mp hp
          exact hpk (huniq p hpm q hq hid).1
        · rw [if_neg hgc] at hp
          rcases (mem_mset_iff h.1).mp hp with hh | ⟨hpm, hpk⟩
          · rw [hh] at hq
            have hq2 : q ∈ mdel k inner := hq
            obtain ⟨hqm, hqk⟩ := (mem_mdel_iff hinner_nd).mp hq2
            exact hqk (huniq (r, inner) (mget_some_mem hget) q hqm hid).2
          · exact hpk (huniq p hpm q hq hid).1
      · rw [stop_nextId]
        exact hlt

/-- Claim C7: the typing coordinator keeps at most one pending timer per
(roomId, userId) key and every tstep preserves this well-formedness;
arming over a pending timer for a key replaces it with a fresh handle and
the replaced handle can never fire again; every handle fires at most once
over any event sequence; and after stopTypingForUser cancels the pending
timer of a key, that handle never fires. -/
theorem c7_typing_timer_lifecycle :
    (∀ s e, TWF s → TWF (tstep s e).1) ∧
    (∀ s r k oldId, TWF s → timerFor s r k = some oldId →
      timerFor (scheduleTypingTimeout s r k) r k = some s.nextId ∧
      ∀ evs, countExpired (trun (scheduleTypingTimeout s r k) evs).2 oldId = 0) ∧
    (∀ s id evs, TWF s → id < s.nextId →
      countExpired (trun s evs).2 id ≤ 1) ∧
    (∀ s r k id evs, TWF s → timerFor s r k = some id →
      countExpired (trun (stopTypingForUser s r k) evs).2 id = 0) := by
  refine ⟨tstep_twf, ?_, ?_, ?_⟩
  · intro s r k oldId h hold
    obtain ⟨hnew, hdead, hlt⟩ := arm_replaces s r k oldId h hold
    refine ⟨hnew, ?_⟩
    intro evs
    exact (trun_dead oldId evs (scheduleTypingTimeout s r k) hdead hlt).1
  · intro s id evs h hlt
    exact trun_count id evs s h hlt
  · intro s r k id evs h hold
    obtain ⟨hdead, hlt⟩ := stop_kills s r k id h hold
    exact (trun_dead id evs (stopTypingForUser s r k) hdead hlt).1

theorem c7_witness :
    TWF ⟨[("general", [("10", 1)])], 2⟩ ∧
    timerFor ⟨[("general", [("10", 1)])], 2⟩ "general" "10" = some 1 ∧
    (timerFor (scheduleTypingTimeout ⟨[("general", [("10", 1)])], 2⟩
      "general" "10") "general" "10" = some 2 ∧
      countExpired (trun (scheduleTypingTimeout ⟨[("general", [("10", 1)])], 2⟩
        "general" "10") [TEvent.fire 1]).2 1 = 0) ∧
    countExpired (trun ⟨[("general", [("10", 1)])], 2⟩
      [TEvent.fire 1, TEvent.fire 1]).2 1 ≤ 1 ∧
    countExpired (trun (stopTypingForUser ⟨[("general", [("10", 1)])], 2⟩
      "general" "10") [TEvent.fire 1]).2 1 = 0 :=
  ⟨by decide, by decide,
    ⟨(c7_typing_timer_lifecycle.2.1 ⟨[("general", [("10", 1)])], 2⟩
      "general" "10" 1 (by decide) (by decide)).1,
      (c7_typing_timer_lifecycle.2.1 ⟨[("general", [("10", 1)])], 2⟩
        "general" "10" 1 (by decide) (by decide)).2 [TEvent.fire 1]⟩,
    c7_typing_timer_lifecycle.2.2.1 ⟨[("general", [("10", 1)])], 2⟩ 1
      [TEvent.fire 1, TEvent.fire 1] (by decide) (by decide),
    c7_typing_timer_lifecycle.2.2.2 ⟨[("general", [("10", 1)])], 2⟩
      "general" "10" 1 [TEvent.fire 1] (by decide) (by decide)⟩

theorem sadd_ne_nil {α : Type} [DecidableEq α] (a : α) (l : List α) :
    sadd a l ≠ [] := by
  unfold sadd
  by_cases h : a ∈ l
  · rw [if_pos h]
    intro hl
    rw [hl] at h
    exact absurd h (by simp)
  · rw [if_neg h]
    simp

/-- Claim C8: with several live connections of one user, closing one while
another remains emits no durable offline update and the user stays
recorded online; closing the last connection emits exactly one offline
update and removes the record; a user is recorded online exactly when a
non-empty connection set is stored; and both presence operations preserve
well-formedness of the tracker. -/
theorem c8_presence_last_close (st : PresenceState) :
    (∀ u s ws, PWF st → mget u st.onlineUsers = some s → ws ∈ s →
      2 ≤ s.length →
      (presenceClose st u ws).2 = [] ∧
      isOnline (presenceClose st u ws).1 u = true) ∧
    (∀ u ws, PWF st → mget u st.onlineUsers = some [ws] →
      (presenceClose st u ws).2 = [StatusUpdate.setOffline u] ∧
      isOnline (presenceClose st u ws).1 u = false) ∧
    (∀ u, PWF st →
      (isOnline st u = true ↔ ∃ s, mget u st.onlineUsers = some s ∧ s ≠ [])) ∧
    (∀ u ws, PWF st → PWF (presenceConnect st u ws).1) ∧
    (∀ u ws, PWF st → PWF (presenceClose st u ws).1) := by
  refine ⟨?_, ?_, ?_, ?_, ?_⟩
  · intro u s ws hP hget hws hlen
    have hlene : (s.erase ws).length = s.length - 1 :=
      List.length_erase_of_mem hws
    have hne : ¬ (s.erase ws).length = 0 := by
      rw [hlene]
      omega
    constructor
    · simp only [presenceClose, hget]
      rw [if_neg hne]
    · simp only [presenceClose, hget]
      rw [if_neg hne]
      simp [isOnline, mget_mset_self]
  · intro u ws hP hget
    have hz : (([ws] : List Nat).erase ws).length = 0 := by simp
    constructor
    · simp only [presenceClose, hget]
      rw [if_pos hz]
    · simp only [presenceClose, hget]
      rw [if_pos hz]
      simp [isOnline, mget_mdel_self u st.onlineUsers hP.1]
  · intro u hP
    unfold isOnline
    cases hget : mget u st.onlineUsers with
    | none => simp
    | some s =>
        constructor
        · intro _
          exact ⟨s, rfl, (hP.2 (u, s) (mget_some_mem hget)).1⟩
        · intro _
          rfl
  · intro u ws hP
    cases hget : mget u st.onlineUsers with
    | none =>
        simp only [presenceConnect, hget]
        refine ⟨nodup_keys_mset _ _ _ hP.1, ?_⟩
        intro p hp
        rcases mem_mset_weak hp with hh | hh
        · rw [hh]
          exact ⟨sadd_ne_nil ws [], nodup_sadd ws [] (by simp)⟩
        · exact hP.2 p hh
    | some s =>
        simp only [presenceConnect, hget]
        refine ⟨nodup_keys_mset _ _ _ hP.1, ?_⟩
        intro p hp
        rcases mem_mset_weak hp with hh | hh
        · rw [hh]
          exact ⟨sadd_ne_nil ws s,
            nodup_sadd ws s (hP.2 (u, s) (mget_some_mem hget)).2⟩
        · exact hP.2 p hh
  · intro u ws hP
    cases hget : mget u st.onlineUsers with
    | none =>
        simp only [presenceClose, hget]
        exact hP
    | some s =>
        simp only [presenceClose, hget]
        by_cases hgc : (s.erase ws).length = 0
        · rw [if_pos hgc]
          refine ⟨nodup_keys_mdel _ _ hP.1, ?_⟩
          intro p hp
          exact hP.2 p (mem_mdel_sub hp)
        · rw [if_neg hgc]
          refine ⟨nodup_keys_mset _ _ _ hP.1, ?_⟩
          intro p hp
          rcases mem_mset_weak hp with hh | hh
          · rw [hh]
            refine ⟨?_, ((hP.2 (u, s) (mget_some_mem hget)).2).erase ws⟩
            intro hnil
            have hnil2 : s.erase ws = [] := hnil
            rw [hnil2] at hgc
            exact hgc rfl
          · exact hP.2 p hh

theorem c8_witness :
    PWF ⟨[("10", [1, 2])]⟩ ∧
    mget "10" [("10", ([1, 2] : List Nat))] = some [1, 2] ∧
    (1 : Nat) ∈ ([1, 2] : List Nat) ∧ 2 ≤ ([1, 2] : List Nat).length ∧
    ((presenceClose ⟨[("10", [1, 2])]⟩ "10" 1).2 = [] ∧
      isOnline (presenceClose ⟨[("10", [1, 2])]⟩ "10" 1).1 "10" = true) ∧
    PWF ⟨[("10", [2])]⟩ ∧ mget "10" [("10", ([2] : List Nat))] = some [2] ∧
    ((presenceClose ⟨[("10", [2])]⟩ "10" 2).2 =
      [StatusUpdate.setOffline "10"] ∧
      isOnline (presenceClose ⟨[("10", [2])]⟩ "10" 2).1 "10" = false) :=
  ⟨by decide, by decide, by decide, by decide,
    (c8_presence_last_close ⟨[("10", [1, 2])]⟩).1 "10" [1, 2] 1
      (by decide) (by decide) (by decide) (by decide),
    by decide, by decide,
    (c8_presence_last_close ⟨[("10", [2])]⟩).2.1 "10" 2
      (by decide) (by decide)⟩

end Chat
